import Mathlib

/-!
# conv-commit: the Conventional Commits parser of `commit.go`

A shallow embedding of `Parse` and of the three package-level regular
expressions it uses.

Modelling choices.
* A Go `string` is a `List Char` (the text is taken to be valid UTF-8, so a
  string is its sequence of code points).
* `map[string][]string` is an association list in order of first insertion,
  read through `FooterMap.get` (a missing key reads as the empty slice, as
  indexing a Go map does).
* `(*Commit, error)` is `Except ParseError Commit`: an error comes with a nil
  pointer, a commit with a nil error.
* Go's `regexp` has leftmost-first semantics: of the matches that start
  leftmost it returns the one a backtracking search finds first.  The three
  expressions start with `^`, so the only start is position 0, and they are
  embedded as backtracking matchers written with continuations (`reStar`,
  `rePlus`), alternatives tried in their written order.
-/

namespace ConvCommit

/-! ## Characters and the `strings` package -/

/-- Go `unicode.IsSpace`: the code points with the Unicode White_Space property. -/
def isSpace (c : Char) : Bool :=
  let n := c.toNat
  n == 0x20 || (0x09 ≤ n && n ≤ 0x0D) || n == 0x85 || n == 0xA0 || n == 0x1680 ||
  (0x2000 ≤ n && n ≤ 0x200A) || n == 0x2028 || n == 0x2029 || n == 0x202F ||
  n == 0x205F || n == 0x3000

/-- The regexp class `\w`, which in Go is ASCII only: `[0-9A-Za-z_]`. -/
def isWordChar (c : Char) : Bool :=
  let n := c.toNat
  (48 ≤ n && n ≤ 57) || (65 ≤ n && n ≤ 90) || (97 ≤ n && n ≤ 122) || n == 95

/-- The regexp class `[\w-]`. -/
def isTokenChar (c : Char) : Bool :=
  isWordChar c || c.toNat == 45

/-- The regexp atom `.` (without the `s` flag): any character but the newline. -/
def isDot (c : Char) : Bool :=
  !(c.toNat == 10)

/-- Go `strings.TrimLeftFunc(s, unicode.IsSpace)`. -/
def trimLeft (s : List Char) : List Char :=
  s.dropWhile isSpace

/-- Go `strings.TrimRightFunc(s, unicode.IsSpace)`. -/
def trimRight (s : List Char) : List Char :=
  (s.reverse.dropWhile isSpace).reverse

/-- Go `strings.TrimSpace`. -/
def TrimSpace (s : List Char) : List Char :=
  trimRight (trimLeft s)

/-- Go `strings.SplitN(s, "\n", 2)`: the text before the first newline and, when
there is a newline, the text after it. The result has one or two elements. -/
def SplitN2 : List Char → List (List Char)
  | [] => [[]]
  | c :: cs =>
    if c.toNat == 10 then [[], cs]
    else
      match SplitN2 cs with
      | [] => [[c]]
      | a :: rest => (c :: a) :: rest

/-- Go `strings.Split(s, "\n")`: always at least one element. -/
def Split : List Char → List (List Char)
  | [] => [[]]
  | c :: cs =>
    if c.toNat == 10 then [] :: Split cs
    else
      match Split cs with
      | [] => [[c]]
      | a :: rest => (c :: a) :: rest

/-- Go `strings.Join(lines, "\n")`. -/
def Join : List (List Char) → List Char
  | [] => []
  | [a] => a
  | a :: b :: rest => a ++ '\n' :: Join (b :: rest)

/-- Go `strings.ToLower` on the characters a footer token can hold: the token
group of `footerLineRegex` admits only ASCII word characters, the hyphen and the
space, and on ASCII `ToLower` maps `A`..`Z` to `a`..`z` and keeps the rest. -/
def toLowerChar (c : Char) : Char :=
  if 65 ≤ c.toNat ∧ c.toNat ≤ 90 then Char.ofNat (c.toNat + 32) else c

/-- Go `strings.ToLower`, see `toLowerChar`. -/
def ToLower (s : List Char) : List Char :=
  s.map toLowerChar

/-! ## Backtracking regular-expression combinators -/

/-- Greedy `x*` followed by the rest of the expression `k`: take one more
character of the class when possible and, when the rest then fails, give it
back. `acc` is the text the repetition has consumed so far. -/
def reStar {α : Type} (p : Char → Bool) (k : List Char → List Char → Option α) :
    List Char → List Char → Option α
  | acc, [] => k acc []
  | acc, c :: cs =>
    if p c then
      match reStar p k (acc ++ [c]) cs with
      | some r => some r
      | none => k acc (c :: cs)
    else k acc (c :: cs)

/-- Greedy `x+` followed by the rest of the expression `k`. -/
def rePlus {α : Type} (p : Char → Bool) (k : List Char → List Char → Option α) :
    List Char → Option α
  | [] => none
  | c :: cs => if p c then reStar p k [c] cs else none

/-- A literal followed by the rest of the expression `k`. -/
def reLit {α : Type} : List Char → (List Char → Option α) → List Char → Option α
  | [], k, s => k s
  | _ :: _, _, [] => none
  | w :: ws, k, c :: cs => if c = w then reLit ws k cs else none

/-- Alternation `a|b`: the first alternative that lets the whole expression match. -/
def reAlt {α : Type} (a b : Option α) : Option α :=
  match a with
  | some r => some r
  | none => b

/-! ## The three expressions -/

/-- The capture groups of `headerRegex`; a group that did not take part in the
match is the empty string, as in `FindStringSubmatch`. -/
structure HeaderMatch where
  type : List Char
  scope : List Char
  breaking : List Char
  subject : List Char
deriving DecidableEq, Repr

/-- The tail `: (?P<subject>.+)$` of `headerRegex`. -/
def headerSubject (type scope breaking : List Char) : List Char → Option HeaderMatch :=
  reLit [':', ' ']
    (rePlus isDot (fun subject rest =>
      if rest = [] then some ⟨type, scope, breaking, subject⟩ else none))

/-- The part `(?P<breaking>!)?` of `headerRegex`, then its tail. -/
def headerBreaking (type scope : List Char) (s : List Char) : Option HeaderMatch :=
  reAlt (reLit ['!'] (headerSubject type scope ['!']) s) (headerSubject type scope [] s)

/-- The part `(?:\((?P<scope>[\w-]+)\))?` of `headerRegex`, then its tail. -/
def headerScope (type : List Char) (s : List Char) : Option HeaderMatch :=
  reAlt
    (reLit ['('] (rePlus isTokenChar (fun scope rest =>
      reLit [')'] (headerBreaking type scope) rest)) s)
    (headerBreaking type [] s)

/-- `headerRegex.FindStringSubmatch`, for
`^(?P<type>\w+)(?:\((?P<scope>[\w-]+)\))?(?P<breaking>!)?: (?P<subject>.+)$`. -/
def headerRegex (s : List Char) : Option HeaderMatch :=
  rePlus isWordChar (fun type rest => headerScope type rest) s

/-- The group `(: | #)` of the two footer expressions, then the tail `k`. -/
def footerSeparator {α : Type} (k : List Char → Option α) (s : List Char) : Option α :=
  reAlt (reLit [':', ' '] k s) (reLit [' ', '#'] k s)

/-- `footerBlockIdentifierRegex.MatchString`, for
`^((?:BREAKING-CHANGE|BREAKING CHANGE)|[\w-]+)(: | #)`. -/
def footerBlockIdentifierRegex (s : List Char) : Bool :=
  (reAlt
    (reAlt
      (reLit "BREAKING-CHANGE".data (footerSeparator (fun _ => some ())) s)
      (reLit "BREAKING CHANGE".data (footerSeparator (fun _ => some ())) s))
    (rePlus isTokenChar (fun _ rest => footerSeparator (fun _ => some ()) rest) s)).isSome

/-- The tail `(?P<value>.*)$` of `footerLineRegex`. -/
def footerValue (token : List Char) (s : List Char) : Option (List Char × List Char) :=
  reStar isDot (fun value rest => if rest = [] then some (token, value) else none) [] s

/-- `footerLineRegex.FindStringSubmatch`, reduced to the groups `token` and
`value` that `Parse` reads, for
`^(?P<token>[\w-]+|BREAKING CHANGE|BREAKING-CHANGE)(?P<separator>: | #)(?P<value>.*)$`. -/
def footerLineRegex (s : List Char) : Option (List Char × List Char) :=
  reAlt
    (reAlt
      (rePlus isTokenChar (fun token rest => footerSeparator (footerValue token) rest) s)
      (reLit "BREAKING CHANGE".data
        (footerSeparator (footerValue "BREAKING CHANGE".data)) s))
    (reLit "BREAKING-CHANGE".data
      (footerSeparator (footerValue "BREAKING-CHANGE".data)) s)

/-! ## The footer map -/

/-- A Go `map[string][]string`. -/
abbrev FooterMap := List (List Char × List (List Char))

/-- The read `m[k]`: the empty slice when the key is absent. -/
def FooterMap.get (m : FooterMap) (k : List Char) : List (List Char) :=
  match m with
  | [] => []
  | (k', vs) :: rest => if k' = k then vs else FooterMap.get rest k

/-- The write `m[k] = vs`. -/
def FooterMap.set (m : FooterMap) (k : List Char) (vs : List (List Char)) : FooterMap :=
  match m with
  | [] => [(k, vs)]
  | (k', vs') :: rest => if k' = k then (k, vs) :: rest else (k', vs') :: FooterMap.set rest k vs

/-- The update `xs[len(xs)-1] += extra` of a non-empty slice. -/
def appendToLast : List (List Char) → List Char → List (List Char)
  | [], _ => []
  | [v], extra => [v ++ extra]
  | v :: w :: rest, extra => v :: appendToLast (w :: rest) extra

/-! ## Parse -/

/-- The record `Commit`. -/
structure Commit where
  Type_ : List Char
  Scope : List Char
  Title : List Char
  Body : List Char
  Footer : FooterMap
  IsBreakingChange : Bool
deriving DecidableEq, Repr

/-- The two errors `Parse` returns:
`convcommit: empty or invalid commit message` and
`convcommit: could not parse commit header`. -/
inductive ParseError where
  | emptyMessage
  | malformedHeader
deriving DecidableEq, Repr

/-- The text of the error, as `err.Error()` gives it. -/
def ParseError.Error : ParseError → String
  | .emptyMessage => "convcommit: empty or invalid commit message"
  | .malformedHeader => "convcommit: could not parse commit header"

/-- The `switch strings.ToLower(token)` of the footer loop. -/
def normalizeToken (token : List Char) : List Char :=
  let lower := ToLower token
  if lower = "breaking-change".data then "BREAKING CHANGE".data
  else if lower = "fix".data ∨ lower = "fixes".data ∨ lower = "close".data ∨
      lower = "closes".data then "Closes".data
  else token

/-- The state of the footer loop: `footerMap` and `lastToken`. -/
structure FooterState where
  footerMap : FooterMap
  lastToken : List Char
deriving DecidableEq, Repr

/-- One iteration of the loop `for _, line := range footerLines`. -/
def footerStep (st : FooterState) (line : List Char) : FooterState :=
  match footerLineRegex line with
  | some (token, value) =>
    let token := normalizeToken token
    { footerMap := st.footerMap.set token (st.footerMap.get token ++ [value]),
      lastToken := token }
  | none =>
    if st.lastToken ≠ [] ∧ 0 < (st.footerMap.get st.lastToken).length then
      { footerMap := st.footerMap.set st.lastToken
          (appendToLast (st.footerMap.get st.lastToken) ('\n' :: line)),
        lastToken := st.lastToken }
    else st

/-- The loop `for _, line := range footerLines` from the empty map. -/
def footerLoop (footerLines : List (List Char)) : FooterState :=
  footerLines.foldl footerStep { footerMap := [], lastToken := [] }

/-- The scan for `footerStartIndex`: the index of the first line that
`footerBlockIdentifierRegex` matches; `none` stands for `-1`. -/
def footerStart : List (List Char) → Option Nat
  | [] => none
  | line :: rest =>
    if footerBlockIdentifierRegex line then some 0
    else (footerStart rest).map (· + 1)

/-- Lines 64 to 127 of `Parse`: the commit built from the groups of the matched
header and from `rest`, the text after the header line. -/
def buildCommit (headerParts : HeaderMatch) (rest : List Char) : Commit :=
  let bodyAndFooterLines := Split rest
  let footerStartIndex := footerStart bodyAndFooterLines
  let bodyLines := match footerStartIndex with
    | some i => bodyAndFooterLines.take i
    | none => bodyAndFooterLines
  let footerLines := match footerStartIndex with
    | some i => bodyAndFooterLines.drop i
    | none => []
  let body := TrimSpace (Join bodyLines)
  let footerMap := (footerLoop footerLines).footerMap
  let isBreakingChange :=
    headerParts.breaking == ['!'] ||
      decide (0 < (footerMap.get "BREAKING CHANGE".data).length)
  { Type_ := headerParts.type,
    Title := headerParts.subject,
    IsBreakingChange := isBreakingChange,
    Body := body,
    Footer := footerMap,
    Scope := headerParts.scope }

/-- The function `Parse` of `commit.go`. -/
def Parse (commitMessage : List Char) : Except ParseError Commit :=
  let parts := SplitN2 (TrimSpace commitMessage)
  let header := parts.headD []
  if parts.length = 0 ∨ header = [] then .error .emptyMessage
  else
    let rest := if 1 < parts.length then parts.getD 1 [] else []
    match headerRegex header with
    | none => .error .malformedHeader
    | some headerParts => .ok (buildCommit headerParts rest)

/-! ## Texts the statements are about -/

/-- The header line `type[(scope)][!]: subject`, written out from its parts. -/
def renderHeader (t : List Char) (sc : Option (List Char)) (bang : Bool) (s : List Char) :
    List Char :=
  t ++ ((match sc with
        | some x => '(' :: x ++ [')']
        | none => []) ++ ((if bang then ['!'] else []) ++ ':' :: ' ' :: s))

/-- The first line of a text: what stands before its first newline. -/
def firstLine (s : List Char) : List Char :=
  (Split s).headD []

/-- The lines of a text after its first line. -/
def linesAfter (s : List Char) : List (List Char) :=
  (Split s).tail

/-- The header pattern in words: a non-empty type of word characters, an
optional parenthesised non-empty scope of word characters and hyphens, an
optional `!`, the separator `: ` and a non-empty subject on the same line. -/
def IsHeader (h : List Char) : Prop :=
  ∃ (t : List Char) (sc : Option (List Char)) (bang : Bool) (s : List Char),
    t ≠ [] ∧ (∀ c ∈ t, isWordChar c = true) ∧
    (∀ x, sc = some x → x ≠ [] ∧ ∀ c ∈ x, isTokenChar c = true) ∧
    s ≠ [] ∧ (∀ c ∈ s, c ≠ '\n') ∧ h = renderHeader t sc bang s

/-- One of the two separators of a footer line, `: ` and ` #`. -/
def IsSeparator (sep : List Char) : Prop :=
  sep = [':', ' '] ∨ sep = [' ', '#']

/-- A footer token in words: the literal `BREAKING CHANGE`, the literal
`BREAKING-CHANGE`, or a non-empty run of word characters and hyphens. -/
def IsFooterToken (tok : List Char) : Prop :=
  tok = "BREAKING CHANGE".data ∨ tok = "BREAKING-CHANGE".data ∨
    (tok ≠ [] ∧ ∀ c ∈ tok, isTokenChar c = true)

/-- A line opens the footer block, in words: it starts with a footer token that
is immediately followed by a separator. -/
def IsFooterOpen (line : List Char) : Prop :=
  ∃ tok sep rest, IsFooterToken tok ∧ IsSeparator sep ∧ line = tok ++ sep ++ rest

/-- The text `tok` is the lower-case word `w` in some letter casing: the same
length, and each character is the one of `w` or, for a letter, its capital. -/
def anyCasing : List Char → List Char → Bool
  | [], [] => true
  | d :: w, c :: tok =>
    (c == d || (decide (97 ≤ d.toNat ∧ d.toNat ≤ 122) && c.toNat + 32 == d.toNat)) &&
      anyCasing w tok
  | _, _ => false

/-- The key a footer token is filed under, in the words of the normalisation
rule: `Closes` for `fix`, `fixes`, `close`, `closes` in any casing,
`BREAKING CHANGE` for `breaking-change` in any casing and for the literal
`BREAKING CHANGE`, and the token as written otherwise. -/
def canonicalToken (tok : List Char) : List Char :=
  if anyCasing "fix".data tok ∨ anyCasing "fixes".data tok ∨ anyCasing "close".data tok ∨
      anyCasing "closes".data tok then "Closes".data
  else if anyCasing "breaking-change".data tok ∨ tok = "BREAKING CHANGE".data then
    "BREAKING CHANGE".data
  else tok

/-- The key a line is filed under when `footerLineRegex` matches it. -/
def lineKey (line : List Char) : Option (List Char) :=
  (footerLineRegex line).map (fun p => canonicalToken p.1)

/-- The text that continuation lines `c1 .. ck` add to a footer value:
a newline and `c1`, up to a newline and `ck`. -/
def continuationText : List (List Char) → List Char
  | [] => []
  | c :: cs => '\n' :: c ++ continuationText cs

/-- The update of the value of the last entry of a list of footer entries. -/
def appendToLastEntry :
    List (List Char × List Char) → List Char → List (List Char × List Char)
  | [], _ => []
  | [(k, v)], extra => [(k, v ++ extra)]
  | e :: e2 :: rest, extra => e :: appendToLastEntry (e2 :: rest) extra

/-- One iteration of the footer loop, seen on the list of the entries made so
far, each a key and a value, in the order the entries were made. -/
def entryStep (es : List (List Char × List Char)) (line : List Char) :
    List (List Char × List Char) :=
  match footerLineRegex line with
  | some (token, value) => es ++ [(normalizeToken token, value)]
  | none => appendToLastEntry es ('\n' :: line)

/-- The entries the footer loop makes on `footerLines`. -/
def entriesOf (footerLines : List (List Char)) : List (List Char × List Char) :=
  footerLines.foldl entryStep []

/-- The values of the entries with key `k`, in order. -/
def valuesAt (es : List (List Char × List Char)) (k : List Char) : List (List Char) :=
  (es.filter (fun e => decide (e.1 = k))).map (fun e => e.2)

/-- The key of the last entry, empty when there is none. -/
def lastKey (es : List (List Char × List Char)) : List Char :=
  match es.getLast? with
  | some e => e.1
  | none => []

/-- The footer value `e` begins with the text that follows the separator of the
footer line `line`. -/
def StartsWithValueOf (line e : List Char) : Prop :=
  ∃ tok sep v, IsSeparator sep ∧ line = tok ++ sep ++ v ∧
    footerLineRegex line = some (tok, v) ∧ v <+: e

/-- The keys present in the map. -/
def FooterMap.keys (m : FooterMap) : List (List Char) :=
  m.map (fun p => p.1)

/-- The token is one of the aliases of the normalisation rule: `fix`, `fixes`,
`close`, `closes` or `breaking-change` in some letter casing. -/
def isAlias (k : List Char) : Bool :=
  anyCasing "fix".data k || anyCasing "fixes".data k || anyCasing "close".data k ||
    anyCasing "closes".data k || anyCasing "breaking-change".data k

/-- The footer line `key: value`. -/
def renderFooterLine (e : List Char × List Char) : List Char :=
  e.1 ++ (':' :: ' ' :: e.2)

/-- The message `type(scope): subject`, a blank line, the body, a blank line and
the footer lines `key: value`. -/
def renderMessage (t sc s b : List Char) (fs : List (List Char × List Char)) : List Char :=
  renderHeader t (some sc) false s ++
    ('\n' :: '\n' :: (b ++ ('\n' :: '\n' :: Join (fs.map renderFooterLine))))

/-- The footer value `e` is made from the footer line `line`: the line is a
token, a separator and a text `v`, and `e` is `v`, alone or followed by
continuation text that starts with a newline. -/
def IsValueOf (line e : List Char) : Prop :=
  ∃ tok sep v cont, IsFooterToken tok ∧ IsSeparator sep ∧ line = tok ++ sep ++ v ∧
    footerLineRegex line = some (tok, v) ∧ e = v ++ cont ∧
    (cont = [] ∨ cont.head? = some '\n')

/-- A header line without subject text: `type[(scope)][!]:`, with or without the
space after the colon. -/
def renderHeaderNoSubject (t : List Char) (sc : Option (List Char)) (bang : Bool)
    (space : Bool) : List Char :=
  t ++ ((match sc with
        | some x => '(' :: x ++ [')']
        | none => []) ++ ((if bang then ['!'] else []) ++ ':' :: (if space then [' '] else [])))

/-- The number of values stored in the map, summed over its keys:
the sum of `len(m[k])` over the keys `k` present. -/
def FooterMap.valueCount (m : FooterMap) : Nat :=
  (m.keys.map (fun k => (m.get k).length)).sum

/-- The sum of the lengths of the slices held in the association list. -/
def FooterMap.total (m : FooterMap) : Nat :=
  (m.map (fun p => p.2.length)).sum

/-! # Theorems -/

/-! ## The combinators: what a match looks like -/

theorem reAlt_some {α : Type} {a b : Option α} {x : α} (h : reAlt a b = some x) :
    a = some x ∨ b = some x := by
  cases a with
  | none => exact Or.inr h
  | some r => exact Or.inl h

theorem reAlt_of_left {α : Type} {a : Option α} (b : Option α) {x : α} (h : a = some x) :
    reAlt a b = some x := by
  subst h; rfl

theorem reAlt_of_right {α : Type} {a : Option α} (b : Option α) (h : a = none) :
    reAlt a b = b := by
  subst h; rfl

theorem reLit_append {α : Type} (w : List Char) (k : List Char → Option α) (r : List Char) :
    reLit w k (w ++ r) = k r := by
  induction w with
  | nil => simp [reLit]
  | cons c w ih => simp [reLit, ih]

theorem reLit_some {α : Type} {w : List Char} {k : List Char → Option α} {s : List Char}
    {x : α} (h : reLit w k s = some x) : ∃ r, s = w ++ r ∧ k r = some x := by
  induction w generalizing s with
  | nil => exact ⟨s, rfl, by simpa [reLit] using h⟩
  | cons c w ih =>
    cases s with
    | nil => simp [reLit] at h
    | cons d s =>
      by_cases hd : d = c
      · subst hd
        simp only [reLit, if_true] at h
        obtain ⟨r, hr, hk⟩ := ih h
        exact ⟨r, by simp [hr], hk⟩
      · simp [reLit, hd] at h

theorem reStar_some {α : Type} {p : Char → Bool} {k : List Char → List Char → Option α}
    {acc s : List Char} {x : α} (h : reStar p k acc s = some x) :
    ∃ a b, s = a ++ b ∧ (∀ c ∈ a, p c = true) ∧ k (acc ++ a) b = some x := by
  induction s generalizing acc with
  | nil => exact ⟨[], [], rfl, by simp, by simpa [reStar] using h⟩
  | cons c cs ih =>
    by_cases hp : p c = true
    · simp only [reStar, hp, if_true] at h
      cases hrec : reStar p k (acc ++ [c]) cs with
      | some r =>
        rw [hrec] at h
        have hrx : r = x := by simpa using h
        subst hrx
        obtain ⟨a, b, hs, ha, hk⟩ := ih hrec
        refine ⟨c :: a, b, by simp [hs], ?_, ?_⟩
        · intro d hd
          rcases List.mem_cons.1 hd with rfl | hd
          · exact hp
          · exact ha d hd
        · simpa using hk
      | none =>
        rw [hrec] at h
        exact ⟨[], c :: cs, rfl, by simp, by simpa using h⟩
    · simp only [reStar, hp] at h
      exact ⟨[], c :: cs, rfl, by simp, by simpa using h⟩

theorem rePlus_some {α : Type} {p : Char → Bool} {k : List Char → List Char → Option α}
    {s : List Char} {x : α} (h : rePlus p k s = some x) :
    ∃ a b, s = a ++ b ∧ a ≠ [] ∧ (∀ c ∈ a, p c = true) ∧ k a b = some x := by
  cases s with
  | nil => simp [rePlus] at h
  | cons c cs =>
    by_cases hp : p c = true
    · simp only [rePlus, hp, if_true] at h
      obtain ⟨a, b, hs, ha, hk⟩ := reStar_some h
      refine ⟨c :: a, b, by simp [hs], by simp, ?_, by simpa using hk⟩
      intro d hd
      rcases List.mem_cons.1 hd with rfl | hd
      · exact hp
      · exact ha d hd
    · simp [rePlus, hp] at h

/-- The greedy repetition takes the whole run `t` when the rest of the
expression accepts what follows it. -/
theorem reStar_run {α : Type} (p : Char → Bool) (k : List Char → List Char → Option α)
    (t r acc : List Char) (x : α) (ht : ∀ c ∈ t, p c = true)
    (hr : ∀ c cs, r = c :: cs → p c = false) (hk : k (acc ++ t) r = some x) :
    reStar p k acc (t ++ r) = some x := by
  induction t generalizing acc with
  | nil =>
    cases r with
    | nil => simpa [reStar] using hk
    | cons c cs => simpa [reStar, hr c cs rfl] using hk
  | cons a t ih =>
    have hpa : p a = true := ht a (List.mem_cons_self _ _)
    have := ih (acc ++ [a]) (fun c hc => ht c (List.mem_cons_of_mem _ hc)) (by simpa using hk)
    simp [reStar, hpa, this]

theorem rePlus_run {α : Type} (p : Char → Bool) (k : List Char → List Char → Option α)
    (t r : List Char) (x : α) (hne : t ≠ []) (ht : ∀ c ∈ t, p c = true)
    (hr : ∀ c cs, r = c :: cs → p c = false) (hk : k t r = some x) :
    rePlus p k (t ++ r) = some x := by
  cases t with
  | nil => exact absurd rfl hne
  | cons a t =>
    have hpa : p a = true := ht a (List.mem_cons_self _ _)
    simp only [List.cons_append, rePlus, hpa, if_true]
    exact reStar_run p k t r [a] x (fun c hc => ht c (List.mem_cons_of_mem _ hc)) hr hk

/-- The greedy repetition fails when the rest of the expression fails at every
split point. -/
theorem reStar_none {α : Type} (p : Char → Bool) (k : List Char → List Char → Option α)
    (acc s : List Char) (h : ∀ a b, s = a ++ b → k (acc ++ a) b = none) :
    reStar p k acc s = none := by
  cases hs : reStar p k acc s with
  | none => rfl
  | some x =>
    obtain ⟨a, b, hab, _, hk⟩ := reStar_some hs
    rw [h a b hab] at hk
    cases hk


theorem toNat_eq_iff (c d : Char) : c.toNat = d.toNat ↔ c = d := by
  constructor
  · intro h
    apply Char.ext
    apply UInt32.ext
    exact h
  · intro h; rw [h]

theorem isDot_iff (c : Char) : isDot c = true ↔ c ≠ '\n' := by
  have h := toNat_eq_iff c '\n'
  have h10 : ('\n' : Char).toNat = 10 := rfl
  rw [h10] at h
  simp [isDot, h]

theorem headerSubject_run (type scope breaking s : List Char) (hs : s ≠ [])
    (hnl : ∀ c ∈ s, c ≠ '\n') :
    headerSubject type scope breaking (':' :: ' ' :: s) = some ⟨type, scope, breaking, s⟩ := by
  unfold headerSubject
  rw [show ':' :: ' ' :: s = [':', ' '] ++ s from rfl, reLit_append]
  have := rePlus_run isDot (fun subject rest =>
      if rest = [] then some (⟨type, scope, breaking, subject⟩ : HeaderMatch) else none)
    s [] ⟨type, scope, breaking, s⟩ hs (fun c hc => (isDot_iff c).2 (hnl c hc))
    (fun c cs h => by cases h) (by simp)
  simpa using this

theorem headerBreaking_run (type scope s : List Char) (bang : Bool) (hs : s ≠ [])
    (hnl : ∀ c ∈ s, c ≠ '\n') :
    headerBreaking type scope ((if bang then ['!'] else []) ++ ':' :: ' ' :: s) =
      some ⟨type, scope, if bang then ['!'] else [], s⟩ := by
  unfold headerBreaking
  cases bang with
  | true =>
    apply reAlt_of_left
    simp only [if_true]
    rw [reLit_append]
    exact headerSubject_run type scope ['!'] s hs hnl
  | false =>
    rw [reAlt_of_right]
    · simpa using headerSubject_run type scope [] s hs hnl
    · simp [reLit]

theorem headerRegex_render (t s : List Char) (sc : Option (List Char)) (bang : Bool)
    (ht : t ≠ []) (htw : ∀ c ∈ t, isWordChar c = true)
    (hsc : ∀ x, sc = some x → x ≠ [] ∧ ∀ c ∈ x, isTokenChar c = true)
    (hs : s ≠ []) (hnl : ∀ c ∈ s, c ≠ '\n') :
    headerRegex (renderHeader t sc bang s) =
      some ⟨t, sc.getD [], if bang then ['!'] else [], s⟩ := by
  unfold headerRegex renderHeader
  apply rePlus_run _ _ _ _ _ ht htw
  · intro c cs h
    cases sc with
    | some x => simp at h; rw [← h.1]; decide
    | none =>
      cases bang with
      | true => simp at h; rw [← h.1]; decide
      | false => simp at h; rw [← h.1]; decide
  · unfold headerScope
    cases sc with
    | some x =>
      obtain ⟨hx, hxt⟩ := hsc x rfl
      apply reAlt_of_left
      simp only [Option.getD_some]
      rw [show '(' :: x ++ [')'] ++ ((if bang then ['!'] else []) ++ ':' :: ' ' :: s) =
        ['('] ++ (x ++ ([')'] ++ ((if bang then ['!'] else []) ++ ':' :: ' ' :: s))) by simp,
        reLit_append]
      apply rePlus_run _ _ _ _ _ hx hxt
      · intro c cs h
        simp at h; rw [← h.1]; decide
      · rw [reLit_append]
        exact headerBreaking_run t x s bang hs hnl
    | none =>
      rw [reAlt_of_right]
      · simpa using headerBreaking_run t [] s bang hs hnl
      · cases bang <;> simp [reLit]


/-! ## `strings.TrimSpace` -/

theorem isSpace_of_isWordChar {c : Char} (h : isWordChar c = true) : isSpace c = false := by
  unfold isWordChar at h
  unfold isSpace
  simp only [Bool.or_eq_true, Bool.and_eq_true, decide_eq_true_eq, beq_iff_eq] at h
  simp only [Bool.or_eq_false_iff, Bool.and_eq_false_iff, decide_eq_false_iff_not,
    beq_eq_false_iff_ne, ne_eq]
  omega

theorem trimLeft_of_head (c : Char) (cs : List Char) (h : isSpace c = false) :
    trimLeft (c :: cs) = c :: cs := by
  simp [trimLeft, List.dropWhile, h]

theorem trimRight_of_last (s : List Char)
    (h : ∀ c, s.getLast? = some c → isSpace c = false) : trimRight s = s := by
  unfold trimRight
  cases hr : s.reverse with
  | nil =>
    have : s = [] := by simpa using hr
    simp [this]
  | cons c cs =>
    have hs : s = cs.reverse ++ [c] := by
      have := congrArg List.reverse hr
      simpa using this
    have hc : isSpace c = false := h c (by simp [hs])
    simp [List.dropWhile, hc, hs]

theorem TrimSpace_eq_self (c : Char) (cs : List Char) (hc : isSpace c = false)
    (h : ∀ d, (c :: cs).getLast? = some d → isSpace d = false) :
    TrimSpace (c :: cs) = c :: cs := by
  unfold TrimSpace
  rw [trimLeft_of_head c cs hc, trimRight_of_last _ h]

/-! ## `strings.SplitN` and `strings.Split` -/

theorem SplitN2_of_no_newline (s : List Char) (h : ∀ c ∈ s, c ≠ '\n') : SplitN2 s = [s] := by
  induction s with
  | nil => rfl
  | cons c cs ih =>
    have hc : ¬ c.toNat = 10 := by
      intro h10
      exact h c (List.mem_cons_self _ _) ((toNat_eq_iff c '\n').1 h10)
    simp [SplitN2, hc, ih (fun d hd => h d (List.mem_cons_of_mem _ hd))]

theorem SplitN2_append (a b : List Char) (h : ∀ c ∈ a, c ≠ '\n') :
    SplitN2 (a ++ '\n' :: b) = [a, b] := by
  induction a with
  | nil => simp [SplitN2]
  | cons c cs ih =>
    have hc : ¬ c.toNat = 10 := by
      intro h10
      exact h c (List.mem_cons_self _ _) ((toNat_eq_iff c '\n').1 h10)
    simp [SplitN2, hc, ih (fun d hd => h d (List.mem_cons_of_mem _ hd))]

/-! ## `Parse`, unfolded once the header is known -/

theorem Parse_of_header_only (m T : List Char) (hp : HeaderMatch) (hT : TrimSpace m = T)
    (hnl : ∀ c ∈ T, c ≠ '\n') (hm : headerRegex T = some hp) :
    Parse m = .ok (buildCommit hp []) := by
  have hne : T ≠ [] := by
    rintro rfl
    simp [headerRegex, rePlus] at hm
  simp [Parse, hT, SplitN2_of_no_newline T hnl, hne, hm]

theorem Parse_of_header_rest (m h rest : List Char) (hp : HeaderMatch)
    (hT : TrimSpace m = h ++ '\n' :: rest)
    (hnl : ∀ c ∈ h, c ≠ '\n') (hm : headerRegex h = some hp) :
    Parse m = .ok (buildCommit hp rest) := by
  have hne : h ≠ [] := by
    rintro rfl
    simp [headerRegex, rePlus] at hm
  simp [Parse, hT, SplitN2_append h rest hnl, hne, hm]

theorem buildCommit_nil (hp : HeaderMatch) :
    buildCommit hp [] =
      { Type_ := hp.type, Scope := hp.scope, Title := hp.subject, Body := [], Footer := [],
        IsBreakingChange := hp.breaking == ['!'] } := by
  simp [buildCommit, Split, footerStart, show footerBlockIdentifierRegex [] = false from rfl,
    Join, footerLoop, FooterMap.get, show TrimSpace [] = [] from rfl]

theorem mem_renderHeader_ne_newline (t s : List Char) (sc : Option (List Char)) (bang : Bool)
    (htw : ∀ c ∈ t, isWordChar c = true)
    (hsc : ∀ x, sc = some x → x ≠ [] ∧ ∀ c ∈ x, isTokenChar c = true)
    (hnl : ∀ c ∈ s, c ≠ '\n') : ∀ c ∈ renderHeader t sc bang s, c ≠ '\n' := by
  intro c hc
  unfold renderHeader at hc
  simp only [List.mem_append, List.mem_cons] at hc
  rcases hc with hc | hc | hc
  · intro h; subst h; exact absurd (htw _ hc) (by decide)
  · cases sc with
    | none => simp at hc
    | some x =>
      simp only [List.mem_append, List.mem_cons] at hc
      rcases hc with hc | hc
      · rcases hc with rfl | hc
        · decide
        · intro h; subst h; exact absurd ((hsc x rfl).2 _ hc) (by decide)
      · rcases hc with rfl | hc
        · decide
        · simp at hc
  · rcases hc with hc | rfl | rfl | hc
    · cases bang <;> simp at hc
      subst hc; decide
    · decide
    · decide
    · exact hnl c hc

/-! ## `headerRegex`: what a match implies -/

theorem headerSubject_sound {type scope breaking r : List Char} {hp : HeaderMatch}
    (h : headerSubject type scope breaking r = some hp) :
    hp = ⟨type, scope, breaking, hp.subject⟩ ∧ hp.subject ≠ [] ∧
      (∀ c ∈ hp.subject, c ≠ '\n') ∧ r = ':' :: ' ' :: hp.subject := by
  unfold headerSubject at h
  obtain ⟨r1, hr, h1⟩ := reLit_some h
  obtain ⟨su, rest, hsplit, hne, hdot, hk⟩ := rePlus_some h1
  by_cases hrest : rest = []
  · simp only [hrest, if_true, Option.some.injEq] at hk
    subst hk
    refine ⟨rfl, hne, fun c hc => (isDot_iff c).1 (hdot c hc), ?_⟩
    simp [hr, hsplit, hrest]
  · simp [hrest] at hk

theorem headerBreaking_sound {type scope r : List Char} {hp : HeaderMatch}
    (h : headerBreaking type scope r = some hp) :
    hp.type = type ∧ hp.scope = scope ∧ hp.subject ≠ [] ∧ (∀ c ∈ hp.subject, c ≠ '\n') ∧
      ((hp.breaking = ['!'] ∧ r = '!' :: ':' :: ' ' :: hp.subject) ∨
       (hp.breaking = [] ∧ r = ':' :: ' ' :: hp.subject)) := by
  unfold headerBreaking at h
  rcases reAlt_some h with h | h
  · obtain ⟨r1, hr, h1⟩ := reLit_some h
    obtain ⟨heq, hne, hnl, hr1⟩ := headerSubject_sound h1
    refine ⟨by rw [heq], by rw [heq], hne, hnl, Or.inl ⟨by rw [heq], ?_⟩⟩
    simp [hr, hr1]
  · obtain ⟨heq, hne, hnl, hr1⟩ := headerSubject_sound h
    exact ⟨by rw [heq], by rw [heq], hne, hnl, Or.inr ⟨by rw [heq], hr1⟩⟩

/-- A header that `headerRegex` matches is the text `type[(scope)][!]: subject`
of its groups. -/
theorem headerRegex_sound {h : List Char} {hp : HeaderMatch} (hm : headerRegex h = some hp) :
    hp.type ≠ [] ∧ (∀ c ∈ hp.type, isWordChar c = true) ∧
    (∀ c ∈ hp.scope, isTokenChar c = true) ∧
    (hp.breaking = [] ∨ hp.breaking = ['!']) ∧
    hp.subject ≠ [] ∧ (∀ c ∈ hp.subject, c ≠ '\n') ∧
    h = renderHeader hp.type (if hp.scope = [] then none else some hp.scope)
      (hp.breaking == ['!']) hp.subject := by
  unfold headerRegex at hm
  obtain ⟨ty, b, hsplit, hty, htyw, hsc⟩ := rePlus_some hm
  unfold headerScope at hsc
  rcases reAlt_some hsc with h1 | h1
  · obtain ⟨r1, hr1, h2⟩ := reLit_some h1
    obtain ⟨sc, r2, hr2, hscne, hsct, h3⟩ := rePlus_some h2
    obtain ⟨r3, hr3, h4⟩ := reLit_some h3
    obtain ⟨e1, e2, hne, hnl, hbr⟩ := headerBreaking_sound h4
    refine ⟨by rw [e1]; exact hty, by rw [e1]; exact htyw, by rw [e2]; exact hsct, ?_, hne, hnl, ?_⟩
    · rcases hbr with ⟨hb, _⟩ | ⟨hb, _⟩
      · exact Or.inr hb
      · exact Or.inl hb
    · rw [e1, e2]
      rcases hbr with ⟨hb, hr⟩ | ⟨hb, hr⟩ <;>
        simp [renderHeader, hscne, hb, hsplit, hr1, hr2, hr3, hr]
  · obtain ⟨e1, e2, hne, hnl, hbr⟩ := headerBreaking_sound h1
    refine ⟨by rw [e1]; exact hty, by rw [e1]; exact htyw, by rw [e2]; simp, ?_, hne, hnl, ?_⟩
    · rcases hbr with ⟨hb, _⟩ | ⟨hb, _⟩
      · exact Or.inr hb
      · exact Or.inl hb
    · rw [e1, e2]
      rcases hbr with ⟨hb, hr⟩ | ⟨hb, hr⟩ <;>
        simp [renderHeader, hb, hsplit, hr]

theorem headerRegex_has_separator {h : List Char} {hp : HeaderMatch} (hm : headerRegex h = some hp) :
    [':', ' '] <:+: h := by
  obtain ⟨_, _, _, _, _, _, heq⟩ := headerRegex_sound hm
  rw [heq]
  unfold renderHeader
  refine ⟨hp.type ++ ((match (if hp.scope = [] then none else some hp.scope) with
        | some x => '(' :: x ++ [')']
        | none => []) ++ (if (hp.breaking == ['!']) = true then ['!'] else [])), hp.subject, ?_⟩
  simp

theorem ne_newline_iff (c : Char) : ¬ c.toNat = 10 ↔ c ≠ '\n' := by
  have h := toNat_eq_iff c '\n'
  have h10 : ('\n' : Char).toNat = 10 := rfl
  rw [h10] at h
  simp [h]

theorem Split_ne_nil (s : List Char) : Split s ≠ [] := by
  induction s with
  | nil => simp [Split]
  | cons c cs ih =>
    unfold Split
    split
    · simp
    · split <;> simp

theorem Split_of_no_newline (s : List Char) (h : ∀ c ∈ s, c ≠ '\n') : Split s = [s] := by
  induction s with
  | nil => rfl
  | cons c cs ih =>
    have hc : ¬ c.toNat = 10 := (ne_newline_iff c).2 (h c (List.mem_cons_self _ _))
    simp [Split, hc, ih (fun d hd => h d (List.mem_cons_of_mem _ hd))]

theorem Split_append (a b : List Char) (h : ∀ c ∈ a, c ≠ '\n') :
    Split (a ++ '\n' :: b) = a :: Split b := by
  induction a with
  | nil => simp [Split]
  | cons c cs ih =>
    have hc : ¬ c.toNat = 10 := (ne_newline_iff c).2 (h c (List.mem_cons_self _ _))
    simp [Split, hc, ih (fun d hd => h d (List.mem_cons_of_mem _ hd))]

/-- A text is one line, or a first line, a newline and the rest. -/
theorem line_cases (s : List Char) :
    (∀ c ∈ s, c ≠ '\n') ∨
    ∃ h rest, s = h ++ '\n' :: rest ∧ ∀ c ∈ h, c ≠ '\n' := by
  induction s with
  | nil => exact Or.inl (by simp)
  | cons c cs ih =>
    by_cases hc : c = '\n'
    · exact Or.inr ⟨[], cs, by simp [hc], by simp⟩
    · rcases ih with h | ⟨h, rest, hs, hh⟩
      · refine Or.inl ?_
        intro d hd
        rcases List.mem_cons.1 hd with rfl | hd
        · exact hc
        · exact h d hd
      · refine Or.inr ⟨c :: h, rest, by simp [hs], ?_⟩
        intro d hd
        rcases List.mem_cons.1 hd with rfl | hd
        · exact hc
        · exact hh d hd

theorem Split_lines (s : List Char) : ∀ l ∈ Split s, ∀ c ∈ l, c ≠ '\n' := by
  induction s with
  | nil => simp [Split]
  | cons c cs ih =>
    by_cases hc : c.toNat = 10
    · simp only [Split, hc, beq_self_eq_true, if_true]
      intro l hl
      rcases List.mem_cons.1 hl with rfl | hl
      · simp
      · exact ih l hl
    · cases hsp : Split cs with
      | nil => exact absurd hsp (Split_ne_nil cs)
      | cons a rest =>
        rw [hsp] at ih
        simp only [Split, hc, hsp]
        intro l hl
        simp only [beq_iff_eq, hc, if_false] at hl
        rcases List.mem_cons.1 hl with rfl | hl
        · intro d hd
          rcases List.mem_cons.1 hd with rfl | hd
          · exact (ne_newline_iff d).1 hc
          · exact ih a (List.mem_cons_self _ _) d hd
        · exact ih l (List.mem_cons_of_mem _ hl)

theorem Join_cons (a : List Char) (ls : List (List Char)) (h : ls ≠ []) :
    Join (a :: ls) = a ++ '\n' :: Join ls := by
  cases ls with
  | nil => exact absurd rfl h
  | cons b rest => rfl

theorem Join_Split (s : List Char) : Join (Split s) = s := by
  induction s with
  | nil => rfl
  | cons c cs ih =>
    by_cases hc : c.toNat = 10
    · have hcn : c = '\n' := (toNat_eq_iff c '\n').1 hc
      simp only [Split, hc, beq_self_eq_true, if_true]
      rw [Join_cons _ _ (Split_ne_nil cs), ih, hcn]
      rfl
    · cases hsp : Split cs with
      | nil => exact absurd hsp (Split_ne_nil cs)
      | cons a rest =>
        rw [hsp] at ih
        simp only [Split, hsp, beq_iff_eq, hc, if_false]
        cases rest with
        | nil => simpa [Join] using ih
        | cons b rest =>
          simp only [Join] at ih ⊢
          rw [← ih]
          rfl

theorem Split_Join (ls : List (List Char)) (hne : ls ≠ [])
    (h : ∀ l ∈ ls, ∀ c ∈ l, c ≠ '\n') : Split (Join ls) = ls := by
  induction ls with
  | nil => exact absurd rfl hne
  | cons a rest ih =>
    cases rest with
    | nil => exact Split_of_no_newline a (h a (List.mem_cons_self _ _))
    | cons b rest =>
      rw [Join_cons _ _ (by simp), Split_append _ _ (h a (List.mem_cons_self _ _)),
        ih (by simp) (fun l hl => h l (List.mem_cons_of_mem _ hl))]

/-! ## More on `strings.TrimSpace` -/

theorem trimLeft_head {s : List Char} {c : Char} {cs : List Char}
    (h : trimLeft s = c :: cs) : isSpace c = false := by
  induction s with
  | nil => simp [trimLeft] at h
  | cons d ds ih =>
    by_cases hd : isSpace d = true
    · apply ih
      simpa [trimLeft, List.dropWhile, hd] using h
    · simp only [Bool.not_eq_true] at hd
      simp only [trimLeft, List.dropWhile, hd] at h
      simp only [List.cons.injEq] at h
      rw [← h.1]; exact hd

theorem trimRight_keeps_front (s : List Char) : trimRight s <+: s := by
  unfold trimRight
  have h : s.reverse.dropWhile isSpace <:+ s.reverse := List.dropWhile_suffix _
  have h2 := List.reverse_prefix.2 h
  simpa using h2

theorem trimRight_eq_nil_iff (s : List Char) :
    trimRight s = [] ↔ ∀ c ∈ s, isSpace c = true := by
  unfold trimRight
  simp [List.dropWhile_eq_nil_iff]

theorem trimLeft_eq_nil_iff (s : List Char) :
    trimLeft s = [] ↔ ∀ c ∈ s, isSpace c = true := by
  unfold trimLeft
  simp [List.dropWhile_eq_nil_iff]

theorem TrimSpace_head {s : List Char} {c : Char} {cs : List Char}
    (h : TrimSpace s = c :: cs) : isSpace c = false := by
  unfold TrimSpace at h
  obtain ⟨t, ht⟩ := trimRight_keeps_front (trimLeft s)
  rw [h] at ht
  exact trimLeft_head ht.symm

theorem TrimSpace_eq_nil_iff (s : List Char) :
    TrimSpace s = [] ↔ ∀ c ∈ s, isSpace c = true := by
  unfold TrimSpace
  constructor
  · intro h
    have hall := (trimRight_eq_nil_iff _).1 h
    cases hl : trimLeft s with
    | nil => exact (trimLeft_eq_nil_iff s).1 hl
    | cons c cs =>
      have h1 := trimLeft_head hl
      have h2 := hall c (by rw [hl]; exact List.mem_cons_self _ _)
      rw [h1] at h2
      cases h2
  · intro h
    rw [(trimLeft_eq_nil_iff s).2 h]
    rfl

/-! ## `Parse` in terms of the first line of the trimmed message -/

theorem Parse_eq (m : List Char) :
    Parse m =
      if TrimSpace m = [] then .error .emptyMessage
      else
        match headerRegex (firstLine (TrimSpace m)) with
        | none => .error .malformedHeader
        | some hp => .ok (buildCommit hp (Join (linesAfter (TrimSpace m)))) := by
  cases hT : TrimSpace m with
  | nil => simp [Parse, hT, SplitN2]
  | cons c cs =>
    have hc : isSpace c = false := TrimSpace_head hT
    have hcn : c ≠ '\n' := by
      rintro rfl
      exact absurd hc (by decide)
    rcases line_cases (c :: cs) with hnl | ⟨h, rest, hs, hh⟩
    · simp [Parse, hT, SplitN2_of_no_newline _ hnl, firstLine, linesAfter,
        Split_of_no_newline _ hnl, Join]
    · have hne : h ≠ [] := by
        rintro rfl
        simp at hs
        exact hcn hs.1
      simp [Parse, hT, hs, SplitN2_append _ _ hh, firstLine, linesAfter,
        Split_append _ _ hh, Join_Split, hne]

/-! ## C1 to C4: the header and the two errors -/

/-- C1. For a non-empty type `t` of word characters, an optional non-empty scope
of word characters and hyphens, an optional `!` and a non-empty subject `s`
without a newline that does not end in whitespace, `Parse` of the one-line
message `t[(scope)][!]: s` succeeds with these parts as `Type`, `Scope` (empty
when none was given) and `Title`, with `IsBreakingChange` true exactly when `!`
was given, an empty `Body` and an empty `Footer`. -/
theorem parse_header_decomposition (t s : List Char) (sc : Option (List Char)) (bang : Bool)
    (ht : t ≠ []) (htw : ∀ c ∈ t, isWordChar c = true)
    (hsc : ∀ x, sc = some x → x ≠ [] ∧ ∀ c ∈ x, isTokenChar c = true)
    (hs : s ≠ []) (hnl : ∀ c ∈ s, c ≠ '\n')
    (hend : ∀ c, s.getLast? = some c → isSpace c = false) :
    Parse (renderHeader t sc bang s) =
      .ok { Type_ := t, Scope := sc.getD [], Title := s, Body := [], Footer := [],
            IsBreakingChange := bang } := by
  have hmatch := headerRegex_render t s sc bang ht htw hsc hs hnl
  have htrim : TrimSpace (renderHeader t sc bang s) = renderHeader t sc bang s := by
    cases t with
    | nil => exact absurd rfl ht
    | cons a t =>
      have ha : isSpace a = false := isSpace_of_isWordChar (htw a (List.mem_cons_self _ _))
      unfold renderHeader
      rw [List.cons_append]
      apply TrimSpace_eq_self _ _ ha
      intro d hd
      apply hend d
      rw [← hd, ← List.cons_append, ← List.append_assoc, ← List.append_assoc]
      rw [show ':' :: ' ' :: s = [':', ' '] ++ s from rfl, ← List.append_assoc]
      rw [List.getLast?_append_of_ne_nil _ hs]
  rw [Parse_of_header_only _ _ _ htrim
    (mem_renderHeader_ne_newline t s sc bang htw hsc hnl) hmatch, buildCommit_nil]
  cases bang <;> rfl

/-- C1 at `feat(api)!: allow provided config`. -/
theorem parse_header_decomposition_witness :
    Parse "feat(api)!: allow provided config".data =
      .ok { Type_ := "feat".data, Scope := "api".data, Title := "allow provided config".data,
            Body := [], Footer := [], IsBreakingChange := true } :=
  parse_header_decomposition "feat".data "allow provided config".data (some "api".data) true
    (by decide) (by decide)
    (fun x hx => by
      have hx' : x = "api".data := by simpa using hx.symm
      subst hx'
      exact ⟨by decide, by decide⟩)
    (by decide) (by decide) (by decide)

/-- C2. `Parse` returns the empty-message error exactly when the message is
empty or made of whitespace only; a message with a character that is not
whitespace fails, if it fails, with the header error, whose text is another. -/
theorem parse_empty_message_iff (m : List Char) :
    (Parse m = .error .emptyMessage ↔ ∀ c ∈ m, isSpace c = true) ∧
    (∀ e, Parse m = .error e → (¬ ∀ c ∈ m, isSpace c = true) → e = .malformedHeader) ∧
    ParseError.emptyMessage.Error ≠ ParseError.malformedHeader.Error := by
  have hP := Parse_eq m
  refine ⟨?_, ?_, by decide⟩
  · rw [← TrimSpace_eq_nil_iff]
    constructor
    · intro h
      by_contra hne
      rw [hP, if_neg hne] at h
      cases hh : headerRegex (firstLine (TrimSpace m)) with
      | none => rw [hh] at h; cases h
      | some hp => rw [hh] at h; cases h
    · intro h
      rw [hP, if_pos h]
  · intro e he hns
    rw [← TrimSpace_eq_nil_iff] at hns
    rw [hP, if_neg hns] at he
    cases hh : headerRegex (firstLine (TrimSpace m)) with
    | none =>
      rw [hh] at he
      injection he with he
      exact he.symm
    | some hp => rw [hh] at he; cases he

/-- C3 as stated fails: the first line of the message `\nfeat: x` is empty, so it
does not contain `: `, and `Parse` succeeds on it, because the message is
trimmed before its first line is taken. -/
theorem parse_no_separator_counterexample :
    ¬ ([':', ' '] <:+: firstLine "\nfeat: x".data) ∧
    Parse "\nfeat: x".data =
      .ok { Type_ := "feat".data, Scope := [], Title := "x".data, Body := [], Footer := [],
            IsBreakingChange := false } := by
  refine ⟨?_, rfl⟩
  rw [show firstLine "\nfeat: x".data = [] from rfl]
  simp

/-- C3, amended. When the first line of the whitespace-trimmed message does not
contain the separator `: `, `Parse` returns an error and no commit, whatever
the remaining lines are. -/
theorem parse_no_separator_error (m : List Char)
    (h : ¬ ([':', ' '] <:+: firstLine (TrimSpace m))) :
    ∃ e, Parse m = .error e := by
  rw [Parse_eq]
  by_cases hT : TrimSpace m = []
  · exact ⟨.emptyMessage, by rw [if_pos hT]⟩
  · rw [if_neg hT]
    cases hh : headerRegex (firstLine (TrimSpace m)) with
    | none => exact ⟨.malformedHeader, rfl⟩
    | some hp => exact absurd (headerRegex_has_separator hh) h

/-- C3, amended, at a message whose later lines hold a footer. -/
theorem parse_no_separator_error_witness :
    ∃ e, Parse "feat a new feature\n\nRefs: #1".data = .error e :=
  parse_no_separator_error "feat a new feature\n\nRefs: #1".data (by
    rw [show firstLine (TrimSpace "feat a new feature\n\nRefs: #1".data) =
      "feat a new feature".data from rfl]
    decide)

theorem headerRegex_of_IsHeader {h : List Char} (hh : IsHeader h) :
    ∃ hp, headerRegex h = some hp := by
  obtain ⟨t, sc, bang, s, ht, htw, hsc, hs, hnl, rfl⟩ := hh
  exact ⟨_, headerRegex_render t s sc bang ht htw hsc hs hnl⟩

/-- C4. When the first line of the whitespace-trimmed message matches the header
pattern, `Parse` returns a commit and no error, whatever lines follow. -/
theorem parse_total_after_header (m : List Char) (h : IsHeader (firstLine (TrimSpace m))) :
    ∃ c, Parse m = .ok c := by
  obtain ⟨hp, hm⟩ := headerRegex_of_IsHeader h
  have hT : TrimSpace m ≠ [] := by
    intro hT
    rw [hT] at hm
    simp [firstLine, Split, headerRegex, rePlus] at hm
  rw [Parse_eq, if_neg hT, hm]
  exact ⟨_, rfl⟩

/-- C4 at a message whose footer block holds lines that are not footer lines. -/
theorem parse_total_after_header_witness :
    ∃ c, Parse "fix: y\n\nRefs: #1\n!!\n\n: :".data = .ok c :=
  parse_total_after_header "fix: y\n\nRefs: #1\n!!\n\n: :".data
    ⟨"fix".data, none, false, "y".data, by decide, by decide, by simp, by decide, by decide, rfl⟩

/-! ## The footer expressions -/

theorem reAlt_isSome {α : Type} (a b : Option α) :
    (reAlt a b).isSome = (a.isSome || b.isSome) := by
  cases a <;> simp [reAlt]

theorem footerSeparator_some {α : Type} {k : List Char → Option α} {s : List Char} {x : α}
    (h : footerSeparator k s = some x) :
    ∃ sep r, IsSeparator sep ∧ s = sep ++ r ∧ k r = some x := by
  unfold footerSeparator at h
  rcases reAlt_some h with h | h
  · obtain ⟨r, hr, hk⟩ := reLit_some h
    exact ⟨_, r, Or.inl rfl, hr, hk⟩
  · obtain ⟨r, hr, hk⟩ := reLit_some h
    exact ⟨_, r, Or.inr rfl, hr, hk⟩

theorem footerSeparator_run {α : Type} (k : List Char → Option α) (sep r : List Char) (x : α)
    (hsep : IsSeparator sep) (hk : k r = some x) :
    footerSeparator k (sep ++ r) = some x := by
  unfold footerSeparator
  rcases hsep with rfl | rfl
  · exact reAlt_of_left _ (by rw [reLit_append]; exact hk)
  · rw [reAlt_of_right _ (by simp [reLit]), reLit_append]
    exact hk

theorem separator_head {sep r : List Char} (hsep : IsSeparator sep) :
    ∀ c cs, sep ++ r = c :: cs → isTokenChar c = false := by
  intro c cs h
  rcases hsep with rfl | rfl <;>
  · simp only [List.cons_append, List.cons.injEq] at h
    rw [← h.1]; decide

theorem footerValue_some {token s : List Char} {p : List Char × List Char}
    (h : footerValue token s = some p) : p = (token, s) ∧ ∀ c ∈ s, c ≠ '\n' := by
  unfold footerValue at h
  obtain ⟨a, b, hs, ha, hk⟩ := reStar_some h
  by_cases hb : b = []
  · simp only [hb, if_true, List.nil_append, Option.some.injEq] at hk
    subst hb
    simp only [List.append_nil] at hs
    subst hs
    exact ⟨hk.symm, fun c hc => (isDot_iff c).1 (ha c hc)⟩
  · simp [hb] at hk

theorem footerValue_run (token s : List Char) (h : ∀ c ∈ s, c ≠ '\n') :
    footerValue token s = some (token, s) := by
  unfold footerValue
  have := reStar_run isDot
    (fun value rest => if rest = [] then some (token, value) else none)
    s [] [] (token, s) (fun c hc => (isDot_iff c).2 (h c hc)) (fun c cs hh => by cases hh)
    (by simp)
  simpa using this

/-- The footer-open expression accepts exactly the lines that start with a
footer token immediately followed by a separator. -/
theorem footerBlockIdentifierRegex_iff (line : List Char) :
    footerBlockIdentifierRegex line = true ↔ IsFooterOpen line := by
  unfold footerBlockIdentifierRegex
  rw [reAlt_isSome, reAlt_isSome]
  constructor
  · intro h
    simp only [Bool.or_eq_true, Option.isSome_iff_exists] at h
    rcases h with (⟨u, h⟩ | ⟨u, h⟩) | ⟨u, h⟩
    · obtain ⟨r, hr, hk⟩ := reLit_some h
      obtain ⟨sep, r2, hsep, hr2, _⟩ := footerSeparator_some hk
      exact ⟨_, sep, r2, Or.inr (Or.inl rfl), hsep, by rw [hr, hr2, List.append_assoc]⟩
    · obtain ⟨r, hr, hk⟩ := reLit_some h
      obtain ⟨sep, r2, hsep, hr2, _⟩ := footerSeparator_some hk
      exact ⟨_, sep, r2, Or.inl rfl, hsep, by rw [hr, hr2, List.append_assoc]⟩
    · obtain ⟨a, b, hs, hne, ha, hk⟩ := rePlus_some h
      obtain ⟨sep, r2, hsep, hr2, _⟩ := footerSeparator_some hk
      exact ⟨a, sep, r2, Or.inr (Or.inr ⟨hne, ha⟩), hsep, by rw [hs, hr2, List.append_assoc]⟩
  · rintro ⟨tok, sep, rest, htok, hsep, rfl⟩
    simp only [Bool.or_eq_true]
    rcases htok with rfl | rfl | ⟨hne, htc⟩
    · refine Or.inl (Or.inr ?_)
      rw [List.append_assoc, reLit_append, footerSeparator_run _ sep rest () hsep rfl]
      rfl
    · refine Or.inl (Or.inl ?_)
      rw [List.append_assoc, reLit_append, footerSeparator_run _ sep rest () hsep rfl]
      rfl
    · refine Or.inr ?_
      rw [List.append_assoc, rePlus_run isTokenChar _ tok (sep ++ rest) () hne htc
        (separator_head hsep) (footerSeparator_run _ sep rest () hsep rfl)]
      rfl

/-- A line that `footerLineRegex` matches is its token, a separator and its value. -/
theorem footerLineRegex_sound {line tok v : List Char}
    (h : footerLineRegex line = some (tok, v)) :
    IsFooterToken tok ∧ (∀ c ∈ v, c ≠ '\n') ∧
      ∃ sep, IsSeparator sep ∧ line = tok ++ sep ++ v := by
  unfold footerLineRegex at h
  rcases reAlt_some h with h | h
  · rcases reAlt_some h with h | h
    · obtain ⟨a, b, hs, hne, ha, hk⟩ := rePlus_some h
      obtain ⟨sep, r, hsep, hr, hv⟩ := footerSeparator_some hk
      obtain ⟨hp, hnl⟩ := footerValue_some hv
      simp only [Prod.mk.injEq] at hp
      obtain ⟨rfl, rfl⟩ := hp
      exact ⟨Or.inr (Or.inr ⟨hne, ha⟩), hnl, sep, hsep, by rw [hs, hr, List.append_assoc]⟩
    · obtain ⟨r1, hr1, hk⟩ := reLit_some h
      obtain ⟨sep, r, hsep, hr, hv⟩ := footerSeparator_some hk
      obtain ⟨hp, hnl⟩ := footerValue_some hv
      simp only [Prod.mk.injEq] at hp
      obtain ⟨rfl, rfl⟩ := hp
      exact ⟨Or.inl rfl, hnl, sep, hsep, by rw [hr1, hr, List.append_assoc]⟩
  · obtain ⟨r1, hr1, hk⟩ := reLit_some h
    obtain ⟨sep, r, hsep, hr, hv⟩ := footerSeparator_some hk
    obtain ⟨hp, hnl⟩ := footerValue_some hv
    simp only [Prod.mk.injEq] at hp
    obtain ⟨rfl, rfl⟩ := hp
    exact ⟨Or.inr (Or.inl rfl), hnl, sep, hsep, by rw [hr1, hr, List.append_assoc]⟩

/-- A run of word characters and hyphens, a separator and a value without a
newline is matched with that run as the token. -/
theorem footerLineRegex_run (tok sep v : List Char) (hne : tok ≠ [])
    (htok : ∀ c ∈ tok, isTokenChar c = true) (hsep : IsSeparator sep)
    (hv : ∀ c ∈ v, c ≠ '\n') :
    footerLineRegex (tok ++ sep ++ v) = some (tok, v) := by
  unfold footerLineRegex
  apply reAlt_of_left
  apply reAlt_of_left
  rw [List.append_assoc]
  exact rePlus_run isTokenChar _ tok (sep ++ v) (tok, v) hne htok (separator_head hsep)
    (footerSeparator_run _ sep v _ hsep (footerValue_run tok v hv))

/-! ## The footer map -/

theorem FooterMap.get_set_same (m : FooterMap) (k : List Char) (vs : List (List Char)) :
    (m.set k vs).get k = vs := by
  induction m with
  | nil => simp [FooterMap.set, FooterMap.get]
  | cons p rest ih =>
    obtain ⟨k', vs'⟩ := p
    by_cases hk : k' = k
    · simp [FooterMap.set, FooterMap.get, hk]
    · simp [FooterMap.set, FooterMap.get, hk, ih]

theorem FooterMap.get_set_ne (m : FooterMap) (k k2 : List Char) (vs : List (List Char))
    (h : k2 ≠ k) : (m.set k vs).get k2 = m.get k2 := by
  induction m with
  | nil => simp [FooterMap.set, FooterMap.get, Ne.symm h]
  | cons p rest ih =>
    obtain ⟨k', vs'⟩ := p
    by_cases hk : k' = k
    · subst hk
      simp [FooterMap.set, FooterMap.get, Ne.symm h]
    · by_cases hk2 : k' = k2
      · subst hk2
        simp [FooterMap.set, FooterMap.get, hk]
      · simp [FooterMap.set, FooterMap.get, hk, hk2, ih]

/-! ## Token normalisation -/

theorem toLowerChar_eq_iff (c d : Char) (hd : ¬ (65 ≤ d.toNat ∧ d.toNat ≤ 90)) :
    toLowerChar c = d ↔ (c = d ∨ ((97 ≤ d.toNat ∧ d.toNat ≤ 122) ∧ c.toNat + 32 = d.toNat)) := by
  unfold toLowerChar
  by_cases hc : 65 ≤ c.toNat ∧ c.toNat ≤ 90
  · rw [if_pos hc]
    have hval : (Char.ofNat (c.toNat + 32)).toNat = c.toNat + 32 := by
      have hv : (c.toNat + 32).isValidChar := by
        left
        omega
      unfold Char.ofNat
      rw [dif_pos hv]
      rfl
    constructor
    · intro h
      right
      rw [← h, hval]
      exact ⟨by omega, rfl⟩
    · rintro (h | ⟨_, h⟩)
      · subst h; exact absurd hc hd
      · rw [← toNat_eq_iff, hval, h]
  · rw [if_neg hc]
    constructor
    · intro h; exact Or.inl h
    · rintro (h | ⟨h1, h⟩)
      · exact h
      · exfalso; omega

theorem anyCasing_iff (w tok : List Char) (hw : ∀ d ∈ w, ¬ (65 ≤ d.toNat ∧ d.toNat ≤ 90)) :
    anyCasing w tok = true ↔ ToLower tok = w := by
  induction w generalizing tok with
  | nil =>
    cases tok with
    | nil => simp [anyCasing, ToLower]
    | cons c tok => simp [anyCasing, ToLower]
  | cons d w ih =>
    cases tok with
    | nil => simp [anyCasing, ToLower]
    | cons c tok =>
      have hd := hw d (List.mem_cons_self _ _)
      have ih' := ih tok (fun x hx => hw x (List.mem_cons_of_mem _ hx))
      have hc := toLowerChar_eq_iff c d hd
      unfold ToLower at ih' ⊢
      simp only [anyCasing, Bool.and_eq_true, Bool.or_eq_true, beq_iff_eq, decide_eq_true_eq,
        List.map_cons, List.cons.injEq]
      rw [ih', hc]

/-- The `switch` of the footer loop files a token under the key the
normalisation rule names. -/
theorem normalizeToken_eq_canonicalToken (tok : List Char) :
    normalizeToken tok = canonicalToken tok := by
  unfold normalizeToken canonicalToken
  simp only [anyCasing_iff "fix".data tok (by decide),
    anyCasing_iff "fixes".data tok (by decide), anyCasing_iff "close".data tok (by decide),
    anyCasing_iff "closes".data tok (by decide),
    anyCasing_iff "breaking-change".data tok (by decide)]
  by_cases h1 : ToLower tok = "breaking-change".data
  · have h2 : ¬ (ToLower tok = "fix".data ∨ ToLower tok = "fixes".data ∨
        ToLower tok = "close".data ∨ ToLower tok = "closes".data) := by
      rw [h1]; decide
    rw [if_pos h1, if_neg h2, if_pos (Or.inl h1)]
  · by_cases h2 : ToLower tok = "fix".data ∨ ToLower tok = "fixes".data ∨
        ToLower tok = "close".data ∨ ToLower tok = "closes".data
    · rw [if_neg h1, if_pos h2, if_pos h2]
    · rw [if_neg h1, if_neg h2, if_neg h2]
      by_cases h3 : tok = "BREAKING CHANGE".data
      · rw [if_pos (Or.inr h3), h3]
      · rw [if_neg (by rintro (h | h); exact h1 h; exact h3 h)]

/-! ## C6: token normalisation -/

theorem Parse_ok {m : List Char} {c : Commit} (h : Parse m = .ok c) :
    ∃ hp, headerRegex (firstLine (TrimSpace m)) = some hp ∧
      c = buildCommit hp (Join (linesAfter (TrimSpace m))) := by
  rw [Parse_eq] at h
  by_cases hT : TrimSpace m = []
  · rw [if_pos hT] at h; cases h
  · rw [if_neg hT] at h
    cases hh : headerRegex (firstLine (TrimSpace m)) with
    | none => rw [hh] at h; cases h
    | some hp =>
      rw [hh] at h
      injection h with h
      exact ⟨hp, rfl, h.symm⟩

theorem renderHeader_bang_ne (t s : List Char) (sc : Option (List Char)) :
    renderHeader t sc false s ≠ renderHeader t sc true s := by
  unfold renderHeader
  intro h
  have h1 := List.append_cancel_left (List.append_cancel_left h)
  have h2 := congrArg List.length h1
  simp at h2

/-- C6. A footer-block line that `footerLineRegex` matches with token `tok` and
value `v` is handled by one iteration of the footer loop, which appends `v`
under the key of the normalisation rule and changes no other key: `Closes` for
`fix`, `fixes`, `close`, `closes` in any casing, `BREAKING CHANGE` for
`breaking-change` in any casing and for the literal `BREAKING CHANGE`, and `tok`
as written in every other case. -/
theorem footer_token_normalisation (st : FooterState) (line tok v : List Char)
    (h : footerLineRegex line = some (tok, v)) :
    ((footerStep st line).footerMap.get (canonicalToken tok) =
        st.footerMap.get (canonicalToken tok) ++ [v]) ∧
    (∀ k, k ≠ canonicalToken tok →
        (footerStep st line).footerMap.get k = st.footerMap.get k) ∧
    ((anyCasing "fix".data tok = true ∨ anyCasing "fixes".data tok = true ∨
        anyCasing "close".data tok = true ∨ anyCasing "closes".data tok = true) →
      canonicalToken tok = "Closes".data) ∧
    ((anyCasing "breaking-change".data tok = true ∨ tok = "BREAKING CHANGE".data) →
      canonicalToken tok = "BREAKING CHANGE".data) ∧
    (¬ (anyCasing "fix".data tok = true ∨ anyCasing "fixes".data tok = true ∨
        anyCasing "close".data tok = true ∨ anyCasing "closes".data tok = true ∨
        anyCasing "breaking-change".data tok = true ∨ tok = "BREAKING CHANGE".data) →
      canonicalToken tok = tok) := by
  have hstep : footerStep st line =
      { footerMap := st.footerMap.set (canonicalToken tok)
          (st.footerMap.get (canonicalToken tok) ++ [v]),
        lastToken := canonicalToken tok } := by
    unfold footerStep
    rw [h]
    simp only [normalizeToken_eq_canonicalToken]
  refine ⟨?_, ?_, ?_, ?_, ?_⟩
  · rw [hstep]
    exact FooterMap.get_set_same _ _ _
  · intro k hk
    rw [hstep]
    exact FooterMap.get_set_ne _ _ _ _ hk
  · intro hc
    unfold canonicalToken
    rw [if_pos hc]
  · intro hb
    unfold canonicalToken
    by_cases hc : anyCasing "fix".data tok = true ∨ anyCasing "fixes".data tok = true ∨
        anyCasing "close".data tok = true ∨ anyCasing "closes".data tok = true
    · exfalso
      rw [anyCasing_iff _ _ (by decide), anyCasing_iff _ _ (by decide),
        anyCasing_iff _ _ (by decide), anyCasing_iff _ _ (by decide)] at hc
      rcases hb with hb | hb
      · rw [anyCasing_iff _ _ (by decide)] at hb
        rw [hb] at hc
        revert hc
        decide
      · rw [hb] at hc
        revert hc
        decide
    · rw [if_neg hc, if_pos hb]
  · intro hn
    unfold canonicalToken
    rw [if_neg (fun hc => hn (by tauto)), if_neg (fun hb => hn (by tauto))]

/-- C6 at the line `FIXES #102` met with one value already under `Closes`. -/
theorem footer_token_normalisation_witness :
    (footerStep ⟨[("Closes".data, ["#101".data])], "Closes".data⟩
        "FIXES #102".data).footerMap.get "Closes".data = ["#101".data, "102".data] :=
  (footer_token_normalisation ⟨[("Closes".data, ["#101".data])], "Closes".data⟩
    "FIXES #102".data "FIXES".data "102".data rfl).1

/-! ## The footer loop as a list of entries -/

theorem appendToLastEntry_snoc (es : List (List Char × List Char)) (k v x : List Char) :
    appendToLastEntry (es ++ [(k, v)]) x = es ++ [(k, v ++ x)] := by
  induction es with
  | nil => rfl
  | cons e es ih =>
    cases es with
    | nil => simp [appendToLastEntry]
    | cons e2 es =>
      simp only [List.cons_append, appendToLastEntry, List.append_eq] at ih ⊢
      rw [ih]

theorem appendToLast_snoc (vs : List (List Char)) (v x : List Char) :
    appendToLast (vs ++ [v]) x = vs ++ [v ++ x] := by
  induction vs with
  | nil => rfl
  | cons a vs ih =>
    cases vs with
    | nil => simp [appendToLast]
    | cons b vs =>
      simp only [List.cons_append, appendToLast, List.append_eq] at ih ⊢
      rw [ih]

theorem valuesAt_append (es fs : List (List Char × List Char)) (k : List Char) :
    valuesAt (es ++ fs) k = valuesAt es k ++ valuesAt fs k := by
  simp [valuesAt]

theorem valuesAt_single_same (k v : List Char) : valuesAt [(k, v)] k = [v] := by
  simp [valuesAt]

theorem valuesAt_single_ne (k k2 v : List Char) (h : k ≠ k2) : valuesAt [(k, v)] k2 = [] := by
  simp [valuesAt, h]

theorem lastKey_snoc (es : List (List Char × List Char)) (k v : List Char) :
    lastKey (es ++ [(k, v)]) = k := by
  simp [lastKey]

theorem snoc_cases {α : Type} (l : List α) : l = [] ∨ ∃ init last, l = init ++ [last] := by
  induction l using List.reverseRecOn with
  | nil => exact Or.inl rfl
  | append_singleton init last _ => exact Or.inr ⟨init, last, rfl⟩

theorem normalizeToken_ne_nil {line tok v : List Char}
    (h : footerLineRegex line = some (tok, v)) : normalizeToken tok ≠ [] := by
  obtain ⟨htok, _, _⟩ := footerLineRegex_sound h
  have hne : tok ≠ [] := by
    rcases htok with rfl | rfl | ⟨hne, _⟩
    · decide
    · decide
    · exact hne
  unfold normalizeToken
  simp only
  split
  · decide
  · split
    · decide
    · exact hne

/-- The footer loop keeps, under each key, the values of the entries with that
key in order, and `lastToken` is the key of the last entry. -/
theorem footerLoop_entries (lines : List (List Char)) :
    (∀ k, (footerLoop lines).footerMap.get k = valuesAt (entriesOf lines) k) ∧
    (footerLoop lines).lastToken = lastKey (entriesOf lines) ∧
    (∀ e ∈ entriesOf lines, e.1 ≠ []) := by
  induction lines using List.reverseRecOn with
  | nil =>
    refine ⟨fun k => rfl, rfl, ?_⟩
    intro e he
    simp [entriesOf] at he
  | append_singleton ls l ih =>
    obtain ⟨ihget, ihlast, ihne⟩ := ih
    have hloop : footerLoop (ls ++ [l]) = footerStep (footerLoop ls) l := by
      simp [footerLoop, List.foldl_append]
    have hent : entriesOf (ls ++ [l]) = entryStep (entriesOf ls) l := by
      simp [entriesOf, List.foldl_append]
    rw [hloop, hent]
    cases hm : footerLineRegex l with
    | some p =>
      obtain ⟨tok, v⟩ := p
      have hstep : footerStep (footerLoop ls) l =
          { footerMap := (footerLoop ls).footerMap.set (normalizeToken tok)
              ((footerLoop ls).footerMap.get (normalizeToken tok) ++ [v]),
            lastToken := normalizeToken tok } := by
        unfold footerStep
        rw [hm]
      have hes : entryStep (entriesOf ls) l = entriesOf ls ++ [(normalizeToken tok, v)] := by
        unfold entryStep
        rw [hm]
      rw [hstep, hes]
      refine ⟨?_, ?_, ?_⟩
      · intro k
        rw [valuesAt_append]
        by_cases hk : k = normalizeToken tok
        · subst hk
          simp only
          rw [FooterMap.get_set_same, ihget, valuesAt_single_same]
        · simp only
          rw [FooterMap.get_set_ne _ _ _ _ hk, ihget, valuesAt_single_ne _ _ _ (Ne.symm hk),
            List.append_nil]
      · simp only
        rw [lastKey_snoc]
      · intro e he
        rcases List.mem_append.1 he with he | he
        · exact ihne e he
        · simp only [List.mem_singleton] at he
          subst he
          exact normalizeToken_ne_nil hm
    | none =>
      have hes : entryStep (entriesOf ls) l = appendToLastEntry (entriesOf ls) ('\n' :: l) := by
        unfold entryStep
        rw [hm]
      rw [hes]
      rcases snoc_cases (entriesOf ls) with hnil | ⟨init, last, hsnoc⟩
      · have hlast : (footerLoop ls).lastToken = [] := by rw [ihlast, hnil]; rfl
        have hstep : footerStep (footerLoop ls) l = footerLoop ls := by
          unfold footerStep
          rw [hm]
          simp [hlast]
        rw [hstep, hnil]
        refine ⟨?_, ?_, ?_⟩
        · intro k
          rw [ihget, hnil]
          rfl
        · rw [hlast]; rfl
        · intro e he
          simp [appendToLastEntry] at he
      · obtain ⟨k', v'⟩ := last
        have hk' : k' ≠ [] := ihne (k', v') (by rw [hsnoc]; simp)
        have hlast : (footerLoop ls).lastToken = k' := by rw [ihlast, hsnoc, lastKey_snoc]
        have hget : (footerLoop ls).footerMap.get k' = valuesAt init k' ++ [v'] := by
          rw [ihget, hsnoc, valuesAt_append, valuesAt_single_same]
        have hstep : footerStep (footerLoop ls) l =
            { footerMap := (footerLoop ls).footerMap.set k'
                (valuesAt init k' ++ [v' ++ '\n' :: l]),
              lastToken := k' } := by
          unfold footerStep
          rw [hm]
          simp only [hlast, hget]
          rw [if_pos ⟨hk', by simp⟩, appendToLast_snoc]
        rw [hstep, hsnoc, appendToLastEntry_snoc]
        refine ⟨?_, ?_, ?_⟩
        · intro k
          rw [valuesAt_append]
          by_cases hk : k = k'
          · subst hk
            simp only
            rw [FooterMap.get_set_same, valuesAt_single_same]
          · simp only
            rw [FooterMap.get_set_ne _ _ _ _ hk, ihget, hsnoc, valuesAt_append,
              valuesAt_single_ne _ _ _ (Ne.symm hk), valuesAt_single_ne _ _ _ (Ne.symm hk)]
        · simp only
          rw [lastKey_snoc]
        · intro e he
          rcases List.mem_append.1 he with he | he
          · exact ihne e (by rw [hsnoc]; exact List.mem_append_left _ he)
          · simp only [List.mem_singleton] at he
            subst he
            exact hk'

theorem entryStep_append (es0 es1 : List (List Char × List Char)) (l : List Char)
    (h : es1 ≠ []) :
    entryStep (es0 ++ es1) l = es0 ++ entryStep es1 l ∧ entryStep es1 l ≠ [] := by
  rcases snoc_cases es1 with hnil | ⟨init, last, hsnoc⟩
  · exact absurd hnil h
  · subst hsnoc
    obtain ⟨k, v⟩ := last
    unfold entryStep
    cases footerLineRegex l with
    | some p =>
      simp
    | none =>
      simp only
      rw [← List.append_assoc, appendToLastEntry_snoc, appendToLastEntry_snoc,
        List.append_assoc]
      simp

/-- Entries made before a non-empty run of later entries are not touched again. -/
theorem foldl_entryStep_append (es0 es1 : List (List Char × List Char))
    (ls : List (List Char)) (h : es1 ≠ []) :
    ls.foldl entryStep (es0 ++ es1) = es0 ++ ls.foldl entryStep es1 := by
  induction ls generalizing es1 with
  | nil => rfl
  | cons l ls ih =>
    obtain ⟨h1, h2⟩ := entryStep_append es0 es1 l h
    simp only [List.foldl_cons]
    rw [h1, ih _ h2]

theorem foldl_entryStep_of_head (es0 : List (List Char × List Char)) (post : List (List Char))
    (h : ∀ x, post.head? = some x → footerLineRegex x ≠ none) :
    post.foldl entryStep es0 = es0 ++ entriesOf post := by
  cases post with
  | nil => simp [entriesOf]
  | cons p post =>
    cases hm : footerLineRegex p with
    | none => exact absurd hm (h p rfl)
    | some q =>
      obtain ⟨tok, v⟩ := q
      have h1 : entryStep es0 p = es0 ++ [(normalizeToken tok, v)] := by
        unfold entryStep; rw [hm]
      have h2 : entryStep [] p = [(normalizeToken tok, v)] := by
        unfold entryStep; rw [hm]; rfl
      simp only [entriesOf, List.foldl_cons]
      rw [h1, h2, foldl_entryStep_append _ _ _ (by simp)]

theorem foldl_entryStep_continuation (es : List (List Char × List Char)) (k v : List Char)
    (cs : List (List Char)) (h : ∀ x ∈ cs, footerLineRegex x = none) :
    cs.foldl entryStep (es ++ [(k, v)]) = es ++ [(k, v ++ continuationText cs)] := by
  induction cs generalizing v with
  | nil => simp [continuationText]
  | cons c cs ih =>
    have hc : entryStep (es ++ [(k, v)]) c = es ++ [(k, v ++ '\n' :: c)] := by
      unfold entryStep
      rw [h c (List.mem_cons_self _ _)]
      exact appendToLastEntry_snoc _ _ _ _
    simp only [List.foldl_cons]
    rw [hc, ih _ (fun x hx => h x (List.mem_cons_of_mem _ hx))]
    simp [continuationText]

/-- The entries of a footer block around a matching line `l` that is followed
by the continuation lines `cs`. -/
theorem entriesOf_split (pre cs post : List (List Char)) (l tok v : List Char)
    (hl : footerLineRegex l = some (tok, v)) (hcs : ∀ x ∈ cs, footerLineRegex x = none)
    (hpost : ∀ x, post.head? = some x → footerLineRegex x ≠ none) :
    entriesOf (pre ++ l :: (cs ++ post)) =
      entriesOf pre ++ (normalizeToken tok, v ++ continuationText cs) :: entriesOf post := by
  have h1 : entryStep (entriesOf pre) l = entriesOf pre ++ [(normalizeToken tok, v)] := by
    unfold entryStep; rw [hl]
  unfold entriesOf at h1 ⊢
  rw [List.foldl_append, List.foldl_cons, List.foldl_append, h1,
    foldl_entryStep_continuation _ _ _ _ hcs, foldl_entryStep_of_head _ _ hpost]
  simp [entriesOf]

/-! ## The boundary between body and footer block -/

theorem footerStart_append (B F : List (List Char))
    (hB : ∀ x ∈ B, footerBlockIdentifierRegex x = false) :
    footerStart (B ++ F) = (footerStart F).map (· + B.length) := by
  induction B with
  | nil => simp
  | cons b B ih =>
    have hb := hB b (List.mem_cons_self _ _)
    have ih' := ih (fun x hx => hB x (List.mem_cons_of_mem _ hx))
    have hcons : footerStart (b :: (B ++ F)) = (footerStart (B ++ F)).map (· + 1) := by
      simp [footerStart, hb]
    rw [List.cons_append, hcons, ih']
    cases footerStart F with
    | none => rfl
    | some n => simp [Nat.add_assoc]

theorem buildCommit_lines (hp : HeaderMatch) (L B F : List (List Char)) (hL : L = B ++ F)
    (hlines : ∀ l ∈ L, ∀ c ∈ l, c ≠ '\n')
    (hB : ∀ x ∈ B, ¬ IsFooterOpen x) (hF : ∀ x, F.head? = some x → IsFooterOpen x) :
    (buildCommit hp (Join L)).Body = TrimSpace (Join B) ∧
    (buildCommit hp (Join L)).Footer = (footerLoop F).footerMap := by
  have hB' : ∀ x ∈ B, footerBlockIdentifierRegex x = false := by
    intro x hx
    cases hr : footerBlockIdentifierRegex x with
    | false => rfl
    | true => exact absurd ((footerBlockIdentifierRegex_iff x).1 hr) (hB x hx)
  by_cases hnil : L = []
  · have hBF : B = [] ∧ F = [] := by
      rw [hnil] at hL
      exact List.append_eq_nil.1 hL.symm
    rw [hnil, hBF.1, hBF.2]
    exact ⟨rfl, rfl⟩
  · have hsplit : Split (Join L) = B ++ F := by
      rw [Split_Join L hnil hlines, hL]
    have hstart := footerStart_append B F hB'
    cases F with
    | nil =>
      have hs : footerStart (Split (Join L)) = none := by
        rw [hsplit, hstart]; rfl
      simp only [buildCommit, hs]
      rw [hsplit]
      simp
    | cons f F =>
      have hf : footerBlockIdentifierRegex f = true :=
        (footerBlockIdentifierRegex_iff f).2 (hF f rfl)
      have hs : footerStart (Split (Join L)) = some B.length := by
        rw [hsplit, hstart]
        simp [footerStart, hf]
      simp only [buildCommit, hs]
      rw [hsplit]
      simp

theorem linesAfter_lines (s : List Char) : ∀ l ∈ linesAfter s, ∀ c ∈ l, c ≠ '\n' := by
  intro l hl
  exact Split_lines s l (List.mem_of_mem_tail hl)

/-- On a successful parse the body is made of the lines before the footer block
and the footer is what the loop makes of the block. -/
theorem parse_footer_block {m : List Char} {c : Commit} (h : Parse m = .ok c)
    (B F : List (List Char)) (hL : linesAfter (TrimSpace m) = B ++ F)
    (hB : ∀ x ∈ B, ¬ IsFooterOpen x) (hF : ∀ x, F.head? = some x → IsFooterOpen x) :
    c.Body = TrimSpace (Join B) ∧ c.Footer = (footerLoop F).footerMap := by
  obtain ⟨hp, _, hc⟩ := Parse_ok h
  rw [hc]
  exact buildCommit_lines hp _ B F hL (linesAfter_lines _) hB hF

/-! ## Values in order of the lines -/

theorem forall2_extend_last {α β : Type} {R : α → β → Prop} (xs : List α) (ys : List β)
    (y y' : β) (h : List.Forall₂ R xs (ys ++ [y])) (hmono : ∀ a, R a y → R a y') :
    List.Forall₂ R xs (ys ++ [y']) := by
  induction ys generalizing xs with
  | nil =>
    cases h with
    | cons hab htl =>
      cases htl
      exact List.Forall₂.cons (hmono _ hab) List.Forall₂.nil
  | cons b ys ih =>
    cases h with
    | cons hab htl => exact List.Forall₂.cons hab (ih _ htl)

theorem StartsWithValueOf_extend (line e x : List Char) (h : StartsWithValueOf line e) :
    StartsWithValueOf line (e ++ x) := by
  obtain ⟨tok, sep, v, hsep, hline, hm, hpre⟩ := h
  exact ⟨tok, sep, v, hsep, hline, hm, hpre.trans (List.prefix_append e x)⟩

theorem lineKey_of_match {l tok v : List Char} (h : footerLineRegex l = some (tok, v)) :
    lineKey l = some (normalizeToken tok) := by
  unfold lineKey
  rw [h, normalizeToken_eq_canonicalToken]
  rfl

theorem lineKey_of_no_match {l : List Char} (h : footerLineRegex l = none) :
    lineKey l = none := by
  unfold lineKey
  rw [h]
  rfl

/-- Under each key the entries stand in the order of the matching lines with
that key, one entry per line, each beginning with the value of its line. -/
theorem entriesOf_rel (ls : List (List Char)) (k : List Char) :
    List.Forall₂ StartsWithValueOf
      (ls.filter (fun line => decide (lineKey line = some k)))
      (valuesAt (entriesOf ls) k) := by
  induction ls using List.reverseRecOn with
  | nil => exact List.Forall₂.nil
  | append_singleton ls l ih =>
    have hent : entriesOf (ls ++ [l]) = entryStep (entriesOf ls) l := by
      simp [entriesOf, List.foldl_append]
    rw [hent, List.filter_append]
    cases hm : footerLineRegex l with
    | some p =>
      obtain ⟨tok, v⟩ := p
      have hes : entryStep (entriesOf ls) l = entriesOf ls ++ [(normalizeToken tok, v)] := by
        unfold entryStep
        rw [hm]
      rw [hes, valuesAt_append]
      apply List.rel_append ih
      by_cases hk : normalizeToken tok = k
      · obtain ⟨_, _, sep, hsep, hline⟩ := footerLineRegex_sound hm
        have hkey : lineKey l = some k := by rw [lineKey_of_match hm, hk]
        rw [hk, valuesAt_single_same]
        simp only [List.filter, hkey, decide_True]
        exact List.Forall₂.cons ⟨tok, sep, v, hsep, hline, hm, List.prefix_refl v⟩
          List.Forall₂.nil
      · have hkey : ¬ lineKey l = some k := by
          rw [lineKey_of_match hm]
          simpa using hk
        rw [valuesAt_single_ne _ _ _ hk]
        simp only [List.filter, hkey, decide_False]
        exact List.Forall₂.nil
    | none =>
      have hes : entryStep (entriesOf ls) l = appendToLastEntry (entriesOf ls) ('\n' :: l) := by
        unfold entryStep
        rw [hm]
      have hkey : ¬ lineKey l = some k := by
        rw [lineKey_of_no_match hm]
        simp
      rw [hes]
      simp only [List.filter, hkey, decide_False, List.append_nil]
      rcases snoc_cases (entriesOf ls) with hnil | ⟨init, last, hsnoc⟩
      · rw [hnil] at ih ⊢
        exact ih
      · obtain ⟨k', v'⟩ := last
        rw [hsnoc] at ih
        rw [hsnoc, appendToLastEntry_snoc]
        rw [valuesAt_append] at ih ⊢
        by_cases hk : k' = k
        · rw [hk, valuesAt_single_same] at ih ⊢
          exact forall2_extend_last _ _ _ _ ih
            (fun a ha => StartsWithValueOf_extend a v' _ ha)
        · rw [valuesAt_single_ne _ _ _ hk] at ih ⊢
          exact ih

/-! ## C7, C8 and C9: the footer block -/

/-- C7. On a successful parse, with `F` the footer block (the lines after the
header from the first footer-opening line on) and `k` any key, `Footer[k]` has
one element per line of `F` that `footerLineRegex` matches with normalised
token `k`, in the order of these lines, and each element begins with the text
after the separator of its line. -/
theorem footer_values_in_order (m : List Char) (c : Commit) (B F : List (List Char))
    (k : List Char) (h : Parse m = .ok c) (hL : linesAfter (TrimSpace m) = B ++ F)
    (hB : ∀ x ∈ B, ¬ IsFooterOpen x) (hF : ∀ x, F.head? = some x → IsFooterOpen x) :
    List.Forall₂ StartsWithValueOf
      (F.filter (fun line => decide (lineKey line = some k))) (c.Footer.get k) := by
  obtain ⟨_, hfooter⟩ := parse_footer_block h B F hL hB hF
  rw [hfooter, (footerLoop_entries F).1 k]
  exact entriesOf_rel F k

/-- C8. On a successful parse, let the footer block be `pre`, a line `l` that
`footerLineRegex` matches with token `tok` and value `v`, lines `cs` that it
does not match, and `post`, which is empty or starts with a matching line.
Then the element of `Footer` for `l`, the one under its normalised token at
the position that counts the earlier lines with that key, is exactly `v`
followed by a newline and each line of `cs`. -/
theorem footer_multiline_value (m : List Char) (c : Commit)
    (B pre cs post : List (List Char)) (l tok v : List Char)
    (h : Parse m = .ok c)
    (hL : linesAfter (TrimSpace m) = B ++ (pre ++ l :: (cs ++ post)))
    (hB : ∀ x ∈ B, ¬ IsFooterOpen x)
    (hF : ∀ x, (pre ++ [l]).head? = some x → IsFooterOpen x)
    (hl : footerLineRegex l = some (tok, v))
    (hcs : ∀ x ∈ cs, footerLineRegex x = none)
    (hpost : ∀ x, post.head? = some x → footerLineRegex x ≠ none) :
    (c.Footer.get (canonicalToken tok))[(pre.filter
        (fun line => decide (lineKey line = some (canonicalToken tok)))).length]? =
      some (v ++ continuationText cs) := by
  have hF' : ∀ x, (pre ++ l :: (cs ++ post)).head? = some x → IsFooterOpen x := by
    intro x hx
    apply hF x
    cases pre with
    | nil => simpa using hx
    | cons p pre => simpa using hx
  obtain ⟨_, hfooter⟩ := parse_footer_block h B _ hL hB hF'
  rw [hfooter, (footerLoop_entries _).1, entriesOf_split pre cs post l tok v hl hcs hpost,
    ← normalizeToken_eq_canonicalToken]
  have hlen := (entriesOf_rel pre (normalizeToken tok)).length_eq
  rw [hlen, valuesAt_append]
  have hcons : valuesAt ((normalizeToken tok, v ++ continuationText cs) :: entriesOf post)
      (normalizeToken tok) =
      (v ++ continuationText cs) :: valuesAt (entriesOf post) (normalizeToken tok) := by
    simp [valuesAt]
  rw [hcons, List.getElem?_append_right (Nat.le_refl _)]
  simp

/-- C9. On a successful parse, with `L` the lines after the header line of the
trimmed message: when no line of `L` opens a footer block, `Body` is the
trimmed join of `L` and `Footer` is empty; when line `i` is the first that
opens one, `Body` is the trimmed join of the lines before `i` and `Footer` is
made by the footer loop from the lines from `i` on alone. -/
theorem parse_body_footer_boundary (m : List Char) (c : Commit) (h : Parse m = .ok c) :
    ((∀ x ∈ linesAfter (TrimSpace m), ¬ IsFooterOpen x) →
      c.Body = TrimSpace (Join (linesAfter (TrimSpace m))) ∧ c.Footer = []) ∧
    (∀ (i : Nat) (l : List Char), (linesAfter (TrimSpace m))[i]? = some l → IsFooterOpen l →
      (∀ x ∈ (linesAfter (TrimSpace m)).take i, ¬ IsFooterOpen x) →
      c.Body = TrimSpace (Join ((linesAfter (TrimSpace m)).take i)) ∧
      c.Footer = (footerLoop ((linesAfter (TrimSpace m)).drop i)).footerMap) := by
  constructor
  · intro hnone
    exact parse_footer_block h (linesAfter (TrimSpace m)) [] (by simp) hnone
      (fun x hx => by simp at hx)
  · intro i l hi hopen hbefore
    refine parse_footer_block h _ _ (List.take_append_drop i _).symm hbefore ?_
    intro x hx
    rw [List.head?_drop, hi] at hx
    injection hx with hx
    rw [← hx]
    exact hopen
theorem not_open_of_regex (B : List (List Char))
    (h : ∀ x ∈ B, footerBlockIdentifierRegex x = false) : ∀ x ∈ B, ¬ IsFooterOpen x := by
  intro x hx hopen
  have h1 := h x hx
  rw [(footerBlockIdentifierRegex_iff x).2 hopen] at h1
  cases h1

/-- C7 at the message with the footer lines `Closes: #101`, `Fixes #102` and
`close #103`: `Footer["Closes"]` is `#101`, `102`, `103`. -/
theorem footer_values_in_order_witness :
    (Parse "fix(parser): handle new separator and repeated keys\n\nThis commit adds support for the ' #' separator and ensures\nthat repeated footer keys like 'Closes' are aggregated.\n\nCloses: #101\nFixes #102\nclose #103".data).toOption.map
        (fun c => c.Footer.get "Closes".data) =
      some ["#101".data, "102".data, "103".data] ∧
    List.Forall₂ StartsWithValueOf
      ["Closes: #101".data, "Fixes #102".data, "close #103".data]
      ["#101".data, "102".data, "103".data] :=
  ⟨rfl,
   footer_values_in_order
    "fix(parser): handle new separator and repeated keys\n\nThis commit adds support for the ' #' separator and ensures\nthat repeated footer keys like 'Closes' are aggregated.\n\nCloses: #101\nFixes #102\nclose #103".data
    { Type_ := "fix".data, Scope := "parser".data,
      Title := "handle new separator and repeated keys".data,
      Body := "This commit adds support for the ' #' separator and ensures\nthat repeated footer keys like 'Closes' are aggregated.".data,
      Footer := [("Closes".data, ["#101".data, "102".data, "103".data])],
      IsBreakingChange := false }
    ["".data, "This commit adds support for the ' #' separator and ensures".data,
      "that repeated footer keys like 'Closes' are aggregated.".data, "".data]
    ["Closes: #101".data, "Fixes #102".data, "close #103".data]
    "Closes".data rfl rfl
    (not_open_of_regex _ (by decide))
    (fun x hx => by
      cases hx
      exact (footerBlockIdentifierRegex_iff _).1 (by decide))⟩

/-- C8 at the message whose footer line
`BREAKING-CHANGE: Dropped support for Node 12.` is followed by a blank line and
two text lines: one `BREAKING CHANGE` value holds all four lines. -/
theorem footer_multiline_value_witness :
    FooterMap.get [("BREAKING CHANGE".data, ["Dropped support for Node 12.\n\nThis is the second line of the breaking change description.\nAll consumers must upgrade to Node 14 or higher.".data])]
        "BREAKING CHANGE".data =
      ["Dropped support for Node 12.\n\nThis is the second line of the breaking change description.\nAll consumers must upgrade to Node 14 or higher.".data] ∧
    (FooterMap.get [("BREAKING CHANGE".data, ["Dropped support for Node 12.\n\nThis is the second line of the breaking change description.\nAll consumers must upgrade to Node 14 or higher.".data])]
        "BREAKING CHANGE".data)[0]? =
      some ("Dropped support for Node 12.".data ++ continuationText ["".data,
        "This is the second line of the breaking change description.".data,
        "All consumers must upgrade to Node 14 or higher.".data]) :=
  ⟨rfl,
   footer_multiline_value
    "chore!: drop support for Node 12\n\nBREAKING-CHANGE: Dropped support for Node 12.\n\nThis is the second line of the breaking change description.\nAll consumers must upgrade to Node 14 or higher.".data
    { Type_ := "chore".data, Scope := [], Title := "drop support for Node 12".data, Body := [],
      Footer := [("BREAKING CHANGE".data, ["Dropped support for Node 12.\n\nThis is the second line of the breaking change description.\nAll consumers must upgrade to Node 14 or higher.".data])],
      IsBreakingChange := true }
    ["".data] [] ["".data, "This is the second line of the breaking change description.".data,
      "All consumers must upgrade to Node 14 or higher.".data] []
    "BREAKING-CHANGE: Dropped support for Node 12.".data "BREAKING-CHANGE".data
    "Dropped support for Node 12.".data rfl rfl
    (not_open_of_regex _ (by decide))
    (fun x hx => by
      cases hx
      exact (footerBlockIdentifierRegex_iff _).1 (by decide))
    rfl (by decide) (fun x hx => by cases hx)⟩

/-- C9 at a message with two body lines, one of them holding `: `, and a footer
block of two lines that starts at index 4. -/
theorem parse_body_footer_boundary_witness :
    "body one\n - two: 2".data =
      TrimSpace (Join ["".data, "body one".data, " - two: 2".data, "".data]) ∧
    [("Refs".data, ["#1\nmore".data])] =
      (footerLoop ["Refs: #1".data, "more".data]).footerMap :=
  (parse_body_footer_boundary "feat: x\n\nbody one\n - two: 2\n\nRefs: #1\nmore".data
    { Type_ := "feat".data, Scope := [], Title := "x".data, Body := "body one\n - two: 2".data,
      Footer := [("Refs".data, ["#1\nmore".data])], IsBreakingChange := false } rfl).2
    4 "Refs: #1".data (by decide) ((footerBlockIdentifierRegex_iff _).1 (by decide))
    (not_open_of_regex _ (by decide))

/-! ## The keys of the footer map -/

theorem FooterMap.mem_keys_set (m : FooterMap) (k k2 : List Char) (vs : List (List Char)) :
    k2 ∈ (m.set k vs).keys ↔ k2 = k ∨ k2 ∈ m.keys := by
  induction m with
  | nil => simp [FooterMap.set, FooterMap.keys]
  | cons p rest ih =>
    obtain ⟨k', vs'⟩ := p
    unfold FooterMap.keys at ih ⊢
    by_cases hk : k' = k
    · simp [FooterMap.set, hk]
    · simp only [FooterMap.set, hk, if_false, List.map_cons, List.mem_cons, ih]
      tauto

theorem FooterMap.mem_keys_of_get (m : FooterMap) (k : List Char) (h : m.get k ≠ []) :
    k ∈ m.keys := by
  induction m with
  | nil => simp [FooterMap.get] at h
  | cons p rest ih =>
    obtain ⟨k', vs'⟩ := p
    unfold FooterMap.keys at ih ⊢
    by_cases hk : k' = k
    · simp [hk]
    · simp only [FooterMap.get, hk, if_false] at h
      simp [ih h]

theorem keys_appendToLastEntry (es : List (List Char × List Char)) (x : List Char) :
    (appendToLastEntry es x).map (fun e => e.1) = es.map (fun e => e.1) := by
  rcases snoc_cases es with hnil | ⟨init, last, hsnoc⟩
  · rw [hnil]; rfl
  · obtain ⟨k, v⟩ := last
    rw [hsnoc, appendToLastEntry_snoc]
    simp

/-- The keys present in the footer map are the keys of the entries made. -/
theorem footerLoop_keys (lines : List (List Char)) :
    ∀ k, k ∈ (footerLoop lines).footerMap.keys ↔
      k ∈ (entriesOf lines).map (fun e => e.1) := by
  induction lines using List.reverseRecOn with
  | nil => simp [footerLoop, entriesOf, FooterMap.keys]
  | append_singleton ls l ih =>
    intro k
    have hloop : footerLoop (ls ++ [l]) = footerStep (footerLoop ls) l := by
      simp [footerLoop, List.foldl_append]
    have hent : entriesOf (ls ++ [l]) = entryStep (entriesOf ls) l := by
      simp [entriesOf, List.foldl_append]
    rw [hloop, hent]
    unfold footerStep entryStep
    cases hm : footerLineRegex l with
    | some p =>
      obtain ⟨tok, v⟩ := p
      simp only [FooterMap.mem_keys_set, ih, List.map_append, List.mem_append, List.map_cons,
        List.map_nil, List.mem_singleton]
      tauto
    | none =>
      simp only [keys_appendToLastEntry]
      by_cases hc : (footerLoop ls).lastToken ≠ [] ∧
          0 < ((footerLoop ls).footerMap.get (footerLoop ls).lastToken).length
      · rw [if_pos hc]
        simp only [FooterMap.mem_keys_set]
        constructor
        · rintro (h | h)
          · rw [h, ← ih]
            exact FooterMap.mem_keys_of_get _ _ (List.length_pos.1 hc.2)
          · exact (ih k).1 h
        · intro h
          exact Or.inr ((ih k).2 h)
      · rw [if_neg hc]
        exact ih k

/-! ## Rendering a message and parsing it back -/

theorem Join_append (A B : List (List Char)) (hA : A ≠ []) (hB : B ≠ []) :
    Join (A ++ B) = Join A ++ '\n' :: Join B := by
  induction A with
  | nil => exact absurd rfl hA
  | cons a A ih =>
    cases A with
    | nil =>
      rw [List.singleton_append, Join_cons _ _ hB]
      rfl
    | cons a2 A =>
      have h1 : Join (a :: (a2 :: A ++ B)) = a ++ '\n' :: Join (a2 :: A ++ B) :=
        Join_cons _ _ (by simp)
      have h2 : Join (a :: a2 :: A) = a ++ '\n' :: Join (a2 :: A) := rfl
      rw [List.cons_append, h1, ih (by simp), h2]
      simp

theorem Join_snoc (ls : List (List Char)) (l : List Char) : ∃ P, Join (ls ++ [l]) = P ++ l := by
  by_cases h : ls = []
  · exact ⟨[], by rw [h]; rfl⟩
  · exact ⟨Join ls ++ ['\n'], by rw [Join_append _ _ h (by simp)]; simp [Join]⟩

theorem isTokenChar_ne_space {k : List Char} (hk : ∀ c ∈ k, isTokenChar c = true) :
    k ≠ "BREAKING CHANGE".data := by
  intro h
  have := hk ' ' (by rw [h]; decide)
  revert this
  decide

theorem canonicalToken_of_not_alias (k : List Char) (hk : ∀ c ∈ k, isTokenChar c = true)
    (ha : isAlias k = false) : canonicalToken k = k := by
  unfold isAlias at ha
  simp only [Bool.or_eq_false_iff] at ha
  obtain ⟨⟨⟨⟨h1, h2⟩, h3⟩, h4⟩, h5⟩ := ha
  unfold canonicalToken
  rw [if_neg (by simp [h1, h2, h3, h4]),
    if_neg (by simp [h5, isTokenChar_ne_space hk])]

theorem footerLineRegex_render (e : List Char × List Char) (hne : e.1 ≠ [])
    (hk : ∀ c ∈ e.1, isTokenChar c = true) (hv : ∀ c ∈ e.2, c ≠ '\n') :
    footerLineRegex (renderFooterLine e) = some (e.1, e.2) := by
  have := footerLineRegex_run e.1 [':', ' '] e.2 hne hk (Or.inl rfl) hv
  simpa [renderFooterLine] using this

theorem foldl_entryStep_render (es fs : List (List Char × List Char))
    (hkeys : ∀ e ∈ fs, e.1 ≠ [] ∧ (∀ c ∈ e.1, isTokenChar c = true) ∧ isAlias e.1 = false)
    (hvals : ∀ e ∈ fs, ∀ c ∈ e.2, c ≠ '\n') :
    (fs.map renderFooterLine).foldl entryStep es = es ++ fs := by
  induction fs generalizing es with
  | nil => simp
  | cons e fs ih =>
    obtain ⟨hne, hk, ha⟩ := hkeys e (List.mem_cons_self _ _)
    have hm := footerLineRegex_render e hne hk (hvals e (List.mem_cons_self _ _))
    have hstep : entryStep es (renderFooterLine e) = es ++ [e] := by
      unfold entryStep
      rw [hm]
      simp only
      rw [normalizeToken_eq_canonicalToken, canonicalToken_of_not_alias _ hk ha]
    simp only [List.map_cons, List.foldl_cons]
    rw [hstep, ih _ (fun x hx => hkeys x (List.mem_cons_of_mem _ hx))
      (fun x hx => hvals x (List.mem_cons_of_mem _ hx))]
    simp

theorem TrimSpace_blank_lines (b : List Char) (hb : b ≠ [])
    (hhead : ∀ c, b.head? = some c → isSpace c = false)
    (hlast : ∀ c, b.getLast? = some c → isSpace c = false) :
    TrimSpace ('\n' :: (b ++ ['\n'])) = b := by
  cases b with
  | nil => exact absurd rfl hb
  | cons a b =>
    have ha : isSpace a = false := hhead a rfl
    have h1 : trimLeft ('\n' :: (a :: b ++ ['\n'])) = a :: b ++ ['\n'] := by
      simp [trimLeft, List.dropWhile, ha, show isSpace '\n' = true from rfl]
    unfold TrimSpace
    rw [h1]
    unfold trimRight
    rw [List.reverse_append]
    simp only [List.reverse_cons, List.reverse_nil, List.nil_append, List.singleton_append]
    rw [List.dropWhile_cons, if_pos (show isSpace '\n' = true from rfl)]
    rcases snoc_cases (a :: b) with hnil | ⟨init, last, hsnoc⟩
    · cases hnil
    · have hl : isSpace last = false := hlast last (by rw [hsnoc]; simp)
      have hrev : b.reverse ++ [a] = last :: init.reverse := by
        have := congrArg List.reverse hsnoc
        simpa using this
      rw [hrev, List.dropWhile_cons, hl]
      simp only [Bool.false_eq_true, if_false]
      rw [← hrev]
      simp

theorem not_open_nil : ¬ IsFooterOpen [] := by
  intro h
  have := (footerBlockIdentifierRegex_iff []).2 h
  revert this
  decide

theorem renderFooterLine_ne_newline (e : List Char × List Char)
    (hk : ∀ c ∈ e.1, isTokenChar c = true) (hv : ∀ c ∈ e.2, c ≠ '\n') :
    ∀ c ∈ renderFooterLine e, c ≠ '\n' := by
  intro c hc
  unfold renderFooterLine at hc
  simp only [List.mem_append, List.mem_cons] at hc
  rcases hc with hc | rfl | rfl | hc
  · intro h; subst h; exact absurd (hk _ hc) (by decide)
  · decide
  · decide
  · exact hv c hc

theorem valuesAt_eq_nil (fs : List (List Char × List Char)) (k : List Char)
    (h : ∀ e ∈ fs, e.1 ≠ k) : valuesAt fs k = [] := by
  unfold valuesAt
  rw [List.map_eq_nil_iff, List.filter_eq_nil_iff]
  intro e he
  simpa using h e he

/-- C10. For a type `t`, a scope `sc`, a one-line subject `s`, a body `b` that
is not empty, neither starts nor ends with whitespace and has no footer-opening
line, and a non-empty list `fs` of footer entries whose keys are non-empty runs
of word characters and hyphens other than the aliases, whose values hold no
newline and the last of whose values is not empty and does not end in
whitespace: `Parse` of the rendered message succeeds with these parts as `Type`,
`Scope`, `Title` and `Body`, with `IsBreakingChange` false, and with a `Footer`
that has exactly the keys of `fs` and maps each to its values in order. -/
theorem parse_render_round_trip (t sc s b : List Char) (fs : List (List Char × List Char))
    (ht : t ≠ []) (htw : ∀ c ∈ t, isWordChar c = true)
    (hsc : sc ≠ []) (hsct : ∀ c ∈ sc, isTokenChar c = true)
    (hs : s ≠ []) (hsnl : ∀ c ∈ s, c ≠ '\n')
    (hb : b ≠ []) (hbhead : ∀ c, b.head? = some c → isSpace c = false)
    (hblast : ∀ c, b.getLast? = some c → isSpace c = false)
    (hbopen : ∀ l ∈ Split b, ¬ IsFooterOpen l)
    (hfs : fs ≠ [])
    (hkeys : ∀ e ∈ fs, e.1 ≠ [] ∧ (∀ c ∈ e.1, isTokenChar c = true) ∧ isAlias e.1 = false)
    (hvals : ∀ e ∈ fs, ∀ c ∈ e.2, c ≠ '\n')
    (hlast : ∀ e, fs.getLast? = some e →
      e.2 ≠ [] ∧ ∀ c, e.2.getLast? = some c → isSpace c = false) :
    ∃ c, Parse (renderMessage t sc s b fs) = .ok c ∧
      c.Type_ = t ∧ c.Scope = sc ∧ c.Title = s ∧ c.Body = b ∧ c.IsBreakingChange = false ∧
      (∀ k, c.Footer.get k = valuesAt fs k) ∧
      (∀ k, k ∈ c.Footer.keys ↔ k ∈ fs.map (fun e => e.1)) := by
  have hscopt : ∀ x, some sc = some x → x ≠ [] ∧ ∀ c ∈ x, isTokenChar c = true := by
    intro x hx
    injection hx with hx
    subst hx
    exact ⟨hsc, hsct⟩
  have hm : headerRegex (renderHeader t (some sc) false s) = some ⟨t, sc, [], s⟩ := by
    have := headerRegex_render t s (some sc) false ht htw hscopt hs hsnl
    simpa using this
  have hHnl := mem_renderHeader_ne_newline t s (some sc) false htw hscopt hsnl
  -- the message is already trimmed
  have htrim : TrimSpace (renderMessage t sc s b fs) = renderMessage t sc s b fs := by
    rcases snoc_cases fs with hnil | ⟨init, e, hsnoc⟩
    · exact absurd hnil hfs
    · obtain ⟨he2, hespace⟩ := hlast e (by rw [hsnoc]; simp)
      obtain ⟨P, hP⟩ := Join_snoc (init.map renderFooterLine) (renderFooterLine e)
      have hmsg : renderMessage t sc s b fs =
          (renderHeader t (some sc) false s ++
            ('\n' :: '\n' :: (b ++ ('\n' :: '\n' :: (P ++ (e.1 ++ [':', ' '])))))) ++ e.2 := by
        unfold renderMessage
        rw [hsnoc, List.map_append, List.map_singleton, hP]
        simp [renderFooterLine]
      cases t with
      | nil => exact absurd rfl ht
      | cons a t =>
        have ha : isSpace a = false := isSpace_of_isWordChar (htw a (List.mem_cons_self _ _))
        have hcons : renderMessage (a :: t) sc s b fs =
            a :: (t ++ (('(' :: sc ++ [')']) ++ (([] : List Char) ++ ':' :: ' ' :: s)) ++
              ('\n' :: '\n' :: (b ++ ('\n' :: '\n' :: Join (fs.map renderFooterLine))))) := by
          simp [renderMessage, renderHeader]
        rw [hcons]
        apply TrimSpace_eq_self _ _ ha
        intro d hd
        apply hespace d
        rw [← hd, ← hcons, hmsg, List.getLast?_append_of_ne_nil _ he2]
  have hparse := Parse_of_header_rest (renderMessage t sc s b fs)
    (renderHeader t (some sc) false s)
    ('\n' :: (b ++ ('\n' :: '\n' :: Join (fs.map renderFooterLine)))) ⟨t, sc, [], s⟩
    (by rw [htrim]; rfl) hHnl hm
  -- the lines after the header
  have hF : fs.map renderFooterLine ≠ [] := by simpa using hfs
  have hJoinB : Join ([] :: (Split b ++ [[]])) = '\n' :: (b ++ ['\n']) := by
    rw [Join_cons _ _ (by simp), Join_append _ _ (Split_ne_nil b) (by simp), Join_Split]
    rfl
  have hrest : '\n' :: (b ++ ('\n' :: '\n' :: Join (fs.map renderFooterLine))) =
      Join (([] :: (Split b ++ [[]])) ++ fs.map renderFooterLine) := by
    rw [Join_append _ _ (by simp) hF, hJoinB]
    simp
  have hlines : ∀ l ∈ ([] :: (Split b ++ [[]])) ++ fs.map renderFooterLine,
      ∀ c ∈ l, c ≠ '\n' := by
    intro l hl
    simp only [List.mem_append, List.mem_cons, List.mem_singleton, List.mem_map,
      List.not_mem_nil, or_false] at hl
    rcases hl with (rfl | hl | rfl) | ⟨e, he, rfl⟩
    · simp
    · exact Split_lines b l hl
    · simp
    · exact renderFooterLine_ne_newline e (hkeys e he).2.1 (hvals e he)
  have hBno : ∀ x ∈ [] :: (Split b ++ [[]]), ¬ IsFooterOpen x := by
    intro x hx
    simp only [List.mem_append, List.mem_cons, List.mem_singleton, List.not_mem_nil,
      or_false] at hx
    rcases hx with rfl | hx | rfl
    · exact not_open_nil
    · exact hbopen x hx
    · exact not_open_nil
  have hFopen : ∀ x, (fs.map renderFooterLine).head? = some x → IsFooterOpen x := by
    intro x hx
    cases fs with
    | nil => exact absurd rfl hfs
    | cons e fs =>
      simp only [List.map_cons, List.head?_cons, Option.some.injEq] at hx
      obtain ⟨hne, hk, _⟩ := hkeys e (List.mem_cons_self _ _)
      exact ⟨e.1, [':', ' '], e.2, Or.inr (Or.inr ⟨hne, hk⟩), Or.inl rfl,
        by rw [← hx]; simp [renderFooterLine]⟩
  have hbf := buildCommit_lines ⟨t, sc, [], s⟩ _ _ _ rfl hlines hBno hFopen
  rw [← hrest] at hbf
  obtain ⟨hbody, hfooter⟩ := hbf
  have hentries : entriesOf (fs.map renderFooterLine) = fs := by
    have := foldl_entryStep_render [] fs hkeys hvals
    simpa [entriesOf] using this
  have hget : ∀ k, (buildCommit ⟨t, sc, [], s⟩
      ('\n' :: (b ++ ('\n' :: '\n' :: Join (fs.map renderFooterLine))))).Footer.get k =
      valuesAt fs k := by
    intro k
    rw [hfooter, (footerLoop_entries _).1 k, hentries]
  refine ⟨_, hparse, rfl, rfl, rfl, ?_, ?_, hget, ?_⟩
  · rw [hbody, hJoinB]
    exact TrimSpace_blank_lines b hb hbhead hblast
  · have hB : (buildCommit ⟨t, sc, [], s⟩
        ('\n' :: (b ++ ('\n' :: '\n' :: Join (fs.map renderFooterLine))))).IsBreakingChange =
        (([] : List Char) == ['!'] || decide (0 < ((buildCommit ⟨t, sc, [], s⟩
          ('\n' :: (b ++ ('\n' :: '\n' :: Join (fs.map renderFooterLine))))).Footer.get
            "BREAKING CHANGE".data).length)) := rfl
    rw [hB, hget, valuesAt_eq_nil fs _ (fun e he => isTokenChar_ne_space (hkeys e he).2.1)]
    rfl
  · intro k
    rw [hfooter, footerLoop_keys _ k, hentries]

/-- C10 at the message `feat(api): add X`, a blank line, `Body line one.`, a
blank line and the footer lines `Reviewed-by: Z` and `Refs: #123`. -/
theorem parse_render_round_trip_witness :
    Parse "feat(api): add X\n\nBody line one.\n\nReviewed-by: Z\nRefs: #123".data =
      .ok { Type_ := "feat".data, Scope := "api".data, Title := "add X".data,
            Body := "Body line one.".data,
            Footer := [("Reviewed-by".data, ["Z".data]), ("Refs".data, ["#123".data])],
            IsBreakingChange := false } ∧
    ∃ c, Parse (renderMessage "feat".data "api".data "add X".data "Body line one.".data
        [("Reviewed-by".data, "Z".data), ("Refs".data, "#123".data)]) = .ok c ∧
      c.Type_ = "feat".data ∧ c.Scope = "api".data ∧ c.Title = "add X".data ∧
      c.Body = "Body line one.".data ∧ c.IsBreakingChange = false ∧
      (∀ k, c.Footer.get k =
        valuesAt [("Reviewed-by".data, "Z".data), ("Refs".data, "#123".data)] k) ∧
      (∀ k, k ∈ c.Footer.keys ↔
        k ∈ [("Reviewed-by".data, "Z".data), ("Refs".data, "#123".data)].map (fun e => e.1)) :=
  ⟨rfl,
   parse_render_round_trip "feat".data "api".data "add X".data "Body line one.".data
    [("Reviewed-by".data, "Z".data), ("Refs".data, "#123".data)]
    (by decide) (by decide) (by decide) (by decide) (by decide) (by decide) (by decide)
    (by decide) (by decide) (not_open_of_regex _ (by decide)) (by decide) (by decide)
    (by decide) (by decide)⟩

/-! ## The footer block of any list of lines -/

/-- Any list of lines splits into the lines before the first footer-opening
line and the footer block that starts with it. -/
theorem footer_block_exists (L : List (List Char)) :
    ∃ B F, L = B ++ F ∧ (∀ x ∈ B, ¬ IsFooterOpen x) ∧
      (∀ x, F.head? = some x → IsFooterOpen x) := by
  induction L with
  | nil => exact ⟨[], [], rfl, by simp, by simp⟩
  | cons l L ih =>
    by_cases hl : IsFooterOpen l
    · refine ⟨[], l :: L, rfl, by simp, ?_⟩
      intro x hx
      simp only [List.head?_cons, Option.some.injEq] at hx
      rw [← hx]
      exact hl
    · obtain ⟨B, F, hL, hB, hF⟩ := ih
      refine ⟨l :: B, F, by rw [hL]; rfl, ?_, hF⟩
      intro x hx
      rcases List.mem_cons.1 hx with rfl | hx
      · exact hl
      · exact hB x hx

/-- On a successful parse the footer is what the loop makes of the footer block
of the lines after the header. -/
theorem parse_footer_exists {m : List Char} {c : Commit} (h : Parse m = .ok c) :
    ∃ B F, linesAfter (TrimSpace m) = B ++ F ∧ (∀ x ∈ B, ¬ IsFooterOpen x) ∧
      (∀ x, F.head? = some x → IsFooterOpen x) ∧
      c.Body = TrimSpace (Join B) ∧ c.Footer = (footerLoop F).footerMap := by
  obtain ⟨B, F, hL, hB, hF⟩ := footer_block_exists (linesAfter (TrimSpace m))
  obtain ⟨hbody, hfooter⟩ := parse_footer_block h B F hL hB hF
  exact ⟨B, F, hL, hB, hF, hbody, hfooter⟩

theorem valuesAt_ne_nil_of_mem (es : List (List Char × List Char)) (k : List Char)
    (h : k ∈ es.map (fun e => e.1)) : valuesAt es k ≠ [] := by
  obtain ⟨e, he, hk⟩ := List.mem_map.1 h
  unfold valuesAt
  intro hnil
  rw [List.map_eq_nil_iff, List.filter_eq_nil_iff] at hnil
  exact hnil e he (by simpa using hk)

/-! ## C11 and C12: what every returned commit satisfies -/

/-- C11. On every message on which `Parse` succeeds, the returned `Type` and
`Title` are both non-empty. -/
theorem parse_type_title_nonempty (m : List Char) (c : Commit) (h : Parse m = .ok c) :
    c.Type_ ≠ [] ∧ c.Title ≠ [] := by
  obtain ⟨hp, hm, hc⟩ := Parse_ok h
  obtain ⟨hty, _, _, _, hsu, _, _⟩ := headerRegex_sound hm
  rw [hc]
  exact ⟨hty, hsu⟩

/-- C11 at the shortest kind of message, `a: b`. -/
theorem parse_type_title_nonempty_witness :
    "a".data ≠ [] ∧ "b".data ≠ [] :=
  parse_type_title_nonempty "a: b".data
    { Type_ := "a".data, Scope := [], Title := "b".data, Body := [], Footer := [],
      IsBreakingChange := false } rfl

/-- C12. On every message on which `Parse` succeeds, every key present in the
returned `Footer` maps to a sequence with at least one element. -/
theorem parse_footer_keys_nonempty (m : List Char) (c : Commit) (k : List Char)
    (h : Parse m = .ok c) (hk : k ∈ c.Footer.keys) :
    c.Footer.get k ≠ [] ∧ 0 < (c.Footer.get k).length := by
  obtain ⟨B, F, _, _, _, _, hfooter⟩ := parse_footer_exists h
  rw [hfooter] at hk ⊢
  rw [footerLoop_keys] at hk
  rw [(footerLoop_entries F).1 k]
  have hne := valuesAt_ne_nil_of_mem _ _ hk
  exact ⟨hne, List.length_pos.2 hne⟩

/-- C12 at a message with two keys, one of them fed by two lines. -/
theorem parse_footer_keys_nonempty_witness :
    FooterMap.get [("Refs".data, ["#1".data, "#2".data]), ("Closes".data, ["3".data])]
        "Closes".data ≠ [] ∧
    0 < (FooterMap.get [("Refs".data, ["#1".data, "#2".data]), ("Closes".data, ["3".data])]
        "Closes".data).length :=
  parse_footer_keys_nonempty "fix: y\n\nRefs: #1\nfix #3\nRefs: #2".data
    { Type_ := "fix".data, Scope := [], Title := "y".data, Body := [],
      Footer := [("Refs".data, ["#1".data, "#2".data]), ("Closes".data, ["3".data])],
      IsBreakingChange := false }
    "Closes".data rfl (by decide)

/-! ## C13: what a stored value is made of -/

theorem forall2_mem_right {α β : Type} {R : α → β → Prop} {xs : List α} {ys : List β}
    (h : List.Forall₂ R xs ys) : ∀ y ∈ ys, ∃ x ∈ xs, R x y := by
  induction h with
  | nil => intro y hy; simp at hy
  | cons hab _ ih =>
    intro y hy
    rcases List.mem_cons.1 hy with rfl | hy
    · exact ⟨_, List.mem_cons_self _ _, hab⟩
    · obtain ⟨x, hx, hr⟩ := ih y hy
      exact ⟨x, List.mem_cons_of_mem _ hx, hr⟩

/-- The lines with key `k` and the values under `k` correspond in order under
any relation that holds between a matching line and its value and that
survives the appending of a continuation line. -/
theorem entriesOf_rel_of (R : List Char → List Char → Prop)
    (hbase : ∀ l tok v, footerLineRegex l = some (tok, v) → R l v)
    (hext : ∀ a y x, R a y → R a (y ++ '\n' :: x))
    (ls : List (List Char)) (k : List Char) :
    List.Forall₂ R (ls.filter (fun line => decide (lineKey line = some k)))
      (valuesAt (entriesOf ls) k) := by
  induction ls using List.reverseRecOn with
  | nil => exact List.Forall₂.nil
  | append_singleton ls l ih =>
    have hent : entriesOf (ls ++ [l]) = entryStep (entriesOf ls) l := by
      simp [entriesOf, List.foldl_append]
    rw [hent, List.filter_append]
    cases hm : footerLineRegex l with
    | some p =>
      obtain ⟨tok, v⟩ := p
      have hes : entryStep (entriesOf ls) l = entriesOf ls ++ [(normalizeToken tok, v)] := by
        unfold entryStep
        rw [hm]
      rw [hes, valuesAt_append]
      apply List.rel_append ih
      by_cases hk : normalizeToken tok = k
      · have hkey : lineKey l = some k := by rw [lineKey_of_match hm, hk]
        rw [hk, valuesAt_single_same]
        simp only [List.filter, hkey, decide_True]
        exact List.Forall₂.cons (hbase l tok v hm) List.Forall₂.nil
      · have hkey : ¬ lineKey l = some k := by
          rw [lineKey_of_match hm]
          simpa using hk
        rw [valuesAt_single_ne _ _ _ hk]
        simp only [List.filter, hkey, decide_False]
        exact List.Forall₂.nil
    | none =>
      have hes : entryStep (entriesOf ls) l = appendToLastEntry (entriesOf ls) ('\n' :: l) := by
        unfold entryStep
        rw [hm]
      have hkey : ¬ lineKey l = some k := by
        rw [lineKey_of_no_match hm]
        simp
      rw [hes]
      simp only [List.filter, hkey, decide_False, List.append_nil]
      rcases snoc_cases (entriesOf ls) with hnil | ⟨init, last, hsnoc⟩
      · rw [hnil] at ih ⊢
        exact ih
      · obtain ⟨k', v'⟩ := last
        rw [hsnoc] at ih
        rw [hsnoc, appendToLastEntry_snoc]
        rw [valuesAt_append] at ih ⊢
        by_cases hk : k' = k
        · rw [hk, valuesAt_single_same] at ih ⊢
          exact forall2_extend_last _ _ _ _ ih (fun a ha => hext a v' l ha)
        · rw [valuesAt_single_ne _ _ _ hk] at ih ⊢
          exact ih

theorem IsValueOf_base (l tok v : List Char) (h : footerLineRegex l = some (tok, v)) :
    IsValueOf l v := by
  obtain ⟨htok, _, sep, hsep, hline⟩ := footerLineRegex_sound h
  exact ⟨tok, sep, v, [], htok, hsep, hline, h, by simp, Or.inl rfl⟩

theorem IsValueOf_extend (a y x : List Char) (h : IsValueOf a y) :
    IsValueOf a (y ++ '\n' :: x) := by
  obtain ⟨tok, sep, v, cont, htok, hsep, hline, hm, hy, hcont⟩ := h
  refine ⟨tok, sep, v, cont ++ '\n' :: x, htok, hsep, hline, hm, ?_, Or.inr ?_⟩
  · rw [hy, List.append_assoc]
  · rcases hcont with rfl | hc
    · rfl
    · cases cont with
      | nil => simp at hc
      | cons d cont => simpa using hc

/-- C13 as stated fails: the footer line `Refs: a: b` is introduced by the
separator `: ` and its stored value `a: b` contains `: `. -/
theorem footer_value_separator_counterexample :
    Parse "feat: x\n\nRefs: a: b".data =
      .ok { Type_ := "feat".data, Scope := [], Title := "x".data, Body := [],
            Footer := [("Refs".data, ["a: b".data])], IsBreakingChange := false } ∧
    footerLineRegex "Refs: a: b".data = some ("Refs".data, "a: b".data) ∧
    [':', ' '] <:+: "a: b".data :=
  ⟨rfl, rfl, ⟨"a".data, "b".data, rfl⟩⟩

/-- C13, amended. On every message on which `Parse` succeeds, every value stored
in `Footer` under a key `k` comes from a line after the header that
`footerLineRegex` matches with normalised token `k`; the line is its token, its
separator and a text, and the value is that text, alone or followed by
continuation text that starts with a newline. The token and the separator that
introduce the value are thus not part of it. -/
theorem footer_value_after_separator (m : List Char) (c : Commit) (k e : List Char)
    (h : Parse m = .ok c) (he : e ∈ c.Footer.get k) :
    ∃ line ∈ linesAfter (TrimSpace m), lineKey line = some k ∧ IsValueOf line e := by
  obtain ⟨B, F, hL, _, _, _, hfooter⟩ := parse_footer_exists h
  rw [hfooter, (footerLoop_entries F).1 k] at he
  obtain ⟨line, hline, hval⟩ :=
    forall2_mem_right (entriesOf_rel_of IsValueOf IsValueOf_base IsValueOf_extend F k) e he
  rw [List.mem_filter] at hline
  refine ⟨line, ?_, by simpa using hline.2, hval⟩
  rw [hL]
  exact List.mem_append_right _ hline.1

/-- C13, amended, at the value `a: b` of the footer line `Refs: a: b`. -/
theorem footer_value_after_separator_witness :
    ∃ line ∈ linesAfter (TrimSpace "feat: x\n\nRefs: a: b".data),
      lineKey line = some "Refs".data ∧ IsValueOf line "a: b".data :=
  footer_value_after_separator "feat: x\n\nRefs: a: b".data
    { Type_ := "feat".data, Scope := [], Title := "x".data, Body := [],
      Footer := [("Refs".data, ["a: b".data])], IsBreakingChange := false }
    "Refs".data "a: b".data rfl (by decide)

/-! ## The two footer expressions accept the same lines -/

theorem footerLineRegex_breaking (sep rest : List Char) (hsep : IsSeparator sep)
    (hrest : ∀ c ∈ rest, c ≠ '\n') :
    footerLineRegex ("BREAKING CHANGE".data ++ sep ++ rest) =
      some ("BREAKING CHANGE".data, rest) := by
  have h1 : rePlus isTokenChar
      (fun token r => footerSeparator (footerValue token) r)
      ("BREAKING CHANGE".data ++ sep ++ rest) = none := rfl
  unfold footerLineRegex
  rw [h1]
  apply reAlt_of_left
  rw [reAlt_of_right _ rfl, List.append_assoc, reLit_append]
  exact footerSeparator_run _ sep rest _ hsep (footerValue_run _ rest hrest)

theorem footerLineRegex_of_open {line : List Char} (hnl : ∀ c ∈ line, c ≠ '\n')
    (h : IsFooterOpen line) : ∃ tok v, footerLineRegex line = some (tok, v) := by
  obtain ⟨tok, sep, rest, htok, hsep, rfl⟩ := h
  have hrest : ∀ c ∈ rest, c ≠ '\n' := fun c hc => hnl c (List.mem_append_right _ hc)
  rcases htok with rfl | rfl | ⟨hne, htc⟩
  · exact ⟨_, _, footerLineRegex_breaking sep rest hsep hrest⟩
  · exact ⟨_, _, footerLineRegex_run _ sep rest (by decide) (by decide) hsep hrest⟩
  · exact ⟨_, _, footerLineRegex_run tok sep rest hne htc hsep hrest⟩

theorem open_of_footerLineRegex {line tok v : List Char}
    (h : footerLineRegex line = some (tok, v)) : IsFooterOpen line := by
  obtain ⟨htok, _, sep, hsep, hline⟩ := footerLineRegex_sound h
  exact ⟨tok, sep, v, htok, hsep, hline⟩

theorem foldl_entryStep_ne_nil (es : List (List Char × List Char)) (ls : List (List Char))
    (h : es ≠ []) : ls.foldl entryStep es ≠ [] := by
  induction ls generalizing es with
  | nil => exact h
  | cons l ls ih =>
    simp only [List.foldl_cons]
    exact ih _ (by simpa using (entryStep_append [] es l h).2)

theorem entriesOf_ne_nil_of_head (p : List Char) (ls : List (List Char))
    (h : footerLineRegex p ≠ none) : entriesOf (p :: ls) ≠ [] := by
  cases hm : footerLineRegex p with
  | none => exact absurd hm h
  | some q =>
    obtain ⟨tok, v⟩ := q
    have h2 : entryStep [] p = [(normalizeToken tok, v)] := by
      unfold entryStep; rw [hm]; rfl
    simp only [entriesOf, List.foldl_cons]
    rw [h2]
    exact foldl_entryStep_ne_nil _ _ (by simp)

/-- After a first matching line the footer loop always has a last token with a
value to append to. -/
theorem footerLoop_has_last (p : List Char) (ls : List (List Char))
    (h : footerLineRegex p ≠ none) :
    (footerLoop (p :: ls)).lastToken ≠ [] ∧
    0 < ((footerLoop (p :: ls)).footerMap.get (footerLoop (p :: ls)).lastToken).length := by
  obtain ⟨hget, hlast, hne⟩ := footerLoop_entries (p :: ls)
  rcases snoc_cases (entriesOf (p :: ls)) with hnil | ⟨init, last, hsnoc⟩
  · exact absurd hnil (entriesOf_ne_nil_of_head p ls h)
  · obtain ⟨k', v'⟩ := last
    have hk' : k' ≠ [] := hne (k', v') (by rw [hsnoc]; simp)
    have hl : (footerLoop (p :: ls)).lastToken = k' := by rw [hlast, hsnoc, lastKey_snoc]
    rw [hl, hget, hsnoc, valuesAt_append, valuesAt_single_same]
    exact ⟨hk', by simp⟩

/-! ## C14 and C15 -/

/-- C14. On lines without a newline `footerBlockIdentifierRegex` and
`footerLineRegex` accept the same lines. Hence, on every successful parse, the
footer block `F` starts with a line that `footerLineRegex` matches, and at every
line of `F` that it does not match the loop has a last token with at least one
value, so the line is appended to the latest value and is never dropped. -/
theorem footer_patterns_agree :
    (∀ line : List Char, (∀ c ∈ line, c ≠ '\n') →
      (footerBlockIdentifierRegex line = true ↔ (footerLineRegex line).isSome = true)) ∧
    (∀ (m : List Char) (c : Commit), Parse m = .ok c →
      ∃ B F, linesAfter (TrimSpace m) = B ++ F ∧
        (∀ x ∈ B, footerBlockIdentifierRegex x = false) ∧
        (∀ x, F.head? = some x → (footerLineRegex x).isSome = true) ∧
        c.Footer = (footerLoop F).footerMap ∧
        (∀ pre l post, F = pre ++ l :: post → footerLineRegex l = none →
          (footerLoop pre).lastToken ≠ [] ∧
          0 < ((footerLoop pre).footerMap.get (footerLoop pre).lastToken).length ∧
          footerStep (footerLoop pre) l =
            { footerMap := (footerLoop pre).footerMap.set (footerLoop pre).lastToken
                (appendToLast ((footerLoop pre).footerMap.get (footerLoop pre).lastToken)
                  ('\n' :: l)),
              lastToken := (footerLoop pre).lastToken })) := by
  have hiff : ∀ line : List Char, (∀ c ∈ line, c ≠ '\n') →
      (footerBlockIdentifierRegex line = true ↔ (footerLineRegex line).isSome = true) := by
    intro line hnl
    rw [footerBlockIdentifierRegex_iff]
    constructor
    · intro h
      obtain ⟨tok, v, hm⟩ := footerLineRegex_of_open hnl h
      rw [hm]; rfl
    · intro h
      cases hm : footerLineRegex line with
      | none => rw [hm] at h; cases h
      | some p => exact @open_of_footerLineRegex _ p.1 p.2 hm
  refine ⟨hiff, ?_⟩
  intro m c h
  obtain ⟨B, F, hL, hB, hF, _, hfooter⟩ := parse_footer_exists h
  have hlines : ∀ x ∈ F, ∀ c ∈ x, c ≠ '\n' := by
    intro x hx
    exact linesAfter_lines (TrimSpace m) x (by rw [hL]; exact List.mem_append_right _ hx)
  have hhead : ∀ x, F.head? = some x → (footerLineRegex x).isSome = true := by
    intro x hx
    have hxF : x ∈ F := List.mem_of_mem_head? hx
    exact (hiff x (hlines x hxF)).1 ((footerBlockIdentifierRegex_iff x).2 (hF x hx))
  refine ⟨B, F, hL, ?_, hhead, hfooter, ?_⟩
  · intro x hx
    cases hr : footerBlockIdentifierRegex x with
    | false => rfl
    | true => exact absurd ((footerBlockIdentifierRegex_iff x).1 hr) (hB x hx)
  · intro pre l post hsplit hl
    cases pre with
    | nil =>
      have := hhead l (by rw [hsplit]; rfl)
      rw [hl] at this
      cases this
    | cons p pre =>
      have hp : footerLineRegex p ≠ none := by
        intro hnone
        have := hhead p (by rw [hsplit]; rfl)
        rw [hnone] at this
        cases this
      obtain ⟨h1, h2⟩ := footerLoop_has_last p pre hp
      refine ⟨h1, h2, ?_⟩
      unfold footerStep
      rw [hl]
      simp only
      rw [if_pos ⟨h1, h2⟩]

theorem Parse_ok_of_IsHeader (m : List Char) (h : IsHeader (firstLine (TrimSpace m))) :
    ∃ c, Parse m = .ok c := by
  obtain ⟨hp, hm⟩ := headerRegex_of_IsHeader h
  have hT : TrimSpace m ≠ [] := by
    intro hT
    rw [hT] at hm
    simp [firstLine, Split, headerRegex, rePlus] at hm
  rw [Parse_eq, if_neg hT, hm]
  exact ⟨_, rfl⟩

theorem isTokenChar_of_anyCasing (w tok : List Char) (hw : ∀ d ∈ w, isTokenChar d = true)
    (h : anyCasing w tok = true) : tok.length = w.length ∧ ∀ c ∈ tok, isTokenChar c = true := by
  induction w generalizing tok with
  | nil =>
    cases tok with
    | nil => exact ⟨rfl, by simp⟩
    | cons c tok => simp [anyCasing] at h
  | cons d w ih =>
    cases tok with
    | nil => simp [anyCasing] at h
    | cons c tok =>
      simp only [anyCasing, Bool.and_eq_true, Bool.or_eq_true, beq_iff_eq,
        decide_eq_true_eq] at h
      obtain ⟨hc, hrest⟩ := h
      obtain ⟨hlen, hall⟩ := ih tok (fun x hx => hw x (List.mem_cons_of_mem _ hx)) hrest
      refine ⟨by simp [hlen], ?_⟩
      intro x hx
      rcases List.mem_cons.1 hx with rfl | hx
      · rcases hc with rfl | ⟨hd, hcd⟩
        · exact hw _ (List.mem_cons_self _ _)
        · unfold isTokenChar isWordChar
          simp only [Bool.or_eq_true, Bool.and_eq_true, decide_eq_true_eq, beq_iff_eq]
          left; left; left; right
          omega
      · exact hall x hx

theorem normalizeToken_breaking (tok : List Char)
    (h : tok = "BREAKING CHANGE".data ∨ anyCasing "breaking-change".data tok = true) :
    normalizeToken tok = "BREAKING CHANGE".data := by
  rcases h with rfl | h
  · rfl
  · rw [anyCasing_iff _ _ (by decide)] at h
    unfold normalizeToken
    simp only
    rw [if_pos h]

/-- A line that starts with `BREAKING CHANGE`, or with `breaking-change` in some
casing, and a separator is matched and filed under `BREAKING CHANGE`. -/
theorem lineKey_breaking (tok sep rest : List Char)
    (htok : tok = "BREAKING CHANGE".data ∨ anyCasing "breaking-change".data tok = true)
    (hsep : IsSeparator sep) (hnl : ∀ c ∈ tok ++ sep ++ rest, c ≠ '\n') :
    IsFooterOpen (tok ++ sep ++ rest) ∧
    lineKey (tok ++ sep ++ rest) = some "BREAKING CHANGE".data := by
  have hrest : ∀ c ∈ rest, c ≠ '\n' := fun c hc => hnl c (List.mem_append_right _ hc)
  have hm : footerLineRegex (tok ++ sep ++ rest) = some (tok, rest) := by
    rcases htok with rfl | h
    · exact footerLineRegex_breaking sep rest hsep hrest
    · obtain ⟨hlen, hall⟩ := isTokenChar_of_anyCasing _ tok (by decide) h
      have hne : tok ≠ [] := by
        intro hnil
        rw [hnil] at hlen
        revert hlen
        decide
      exact footerLineRegex_run tok sep rest hne hall hsep hrest
  refine ⟨open_of_footerLineRegex hm, ?_⟩
  rw [lineKey_of_match hm, normalizeToken_breaking tok htok]

/-- C15. For a message whose trimmed first line is a valid header without `!`:
if some line after the header line of the trimmed message starts with
`BREAKING CHANGE`, or with `breaking-change` in any letter casing, immediately
followed by `: ` or ` #`, then `Parse` succeeds with `IsBreakingChange` true
and a non-empty `Footer["BREAKING CHANGE"]`, wherever that line stands. -/
theorem breaking_footer_marks_breaking (m t s : List Char) (sc : Option (List Char))
    (l tok sep rest : List Char)
    (ht : t ≠ []) (htw : ∀ c ∈ t, isWordChar c = true)
    (hsc : ∀ x, sc = some x → x ≠ [] ∧ ∀ c ∈ x, isTokenChar c = true)
    (hs : s ≠ []) (hnl : ∀ c ∈ s, c ≠ '\n')
    (hhead : firstLine (TrimSpace m) = renderHeader t sc false s)
    (hl : l ∈ linesAfter (TrimSpace m))
    (htok : tok = "BREAKING CHANGE".data ∨ anyCasing "breaking-change".data tok = true)
    (hsep : IsSeparator sep) (hline : l = tok ++ sep ++ rest) :
    ∃ c, Parse m = .ok c ∧ c.IsBreakingChange = true ∧
      c.Footer.get "BREAKING CHANGE".data ≠ [] := by
  obtain ⟨c, hc⟩ := Parse_ok_of_IsHeader m
    ⟨t, sc, false, s, ht, htw, hsc, hs, hnl, hhead⟩
  obtain ⟨B, F, hL, hB, _, _, hfooter⟩ := parse_footer_exists hc
  have hlnl : ∀ c ∈ tok ++ sep ++ rest, c ≠ '\n' := by
    rw [← hline]
    exact linesAfter_lines _ l hl
  obtain ⟨hopen, hkey⟩ := lineKey_breaking tok sep rest htok hsep hlnl
  rw [← hline] at hopen hkey
  have hlF : l ∈ F := by
    rw [hL] at hl
    rcases List.mem_append.1 hl with hlB | hlF
    · exact absurd hopen (hB l hlB)
    · exact hlF
  have hmem : l ∈ F.filter (fun line => decide (lineKey line = some "BREAKING CHANGE".data)) := by
    rw [List.mem_filter]
    exact ⟨hlF, by simpa using hkey⟩
  have hlen := (entriesOf_rel F "BREAKING CHANGE".data).length_eq
  have hget : c.Footer.get "BREAKING CHANGE".data ≠ [] := by
    rw [hfooter, (footerLoop_entries F).1]
    intro hnil
    rw [hnil] at hlen
    have := List.length_pos_of_mem hmem
    rw [hlen] at this
    simp at this
  refine ⟨c, hc, ?_, hget⟩
  obtain ⟨hp, _, hcb⟩ := Parse_ok hc
  have hB2 : c.IsBreakingChange =
      (hp.breaking == ['!'] || decide (0 < (c.Footer.get "BREAKING CHANGE".data).length)) := by
    rw [hcb]; rfl
  rw [hB2, Bool.or_eq_true, decide_eq_true_eq]
  exact Or.inr (List.length_pos.2 hget)

/-- C15 at a message whose `Breaking-Change #...` line stands after another
footer line. -/
theorem breaking_footer_marks_breaking_witness :
    ∃ c, Parse "fix(a-b): y\n\nRefs: #1\nBreaking-Change #gone".data = .ok c ∧
      c.IsBreakingChange = true ∧ c.Footer.get "BREAKING CHANGE".data ≠ [] :=
  breaking_footer_marks_breaking "fix(a-b): y\n\nRefs: #1\nBreaking-Change #gone".data
    "fix".data "y".data (some "a-b".data) "Breaking-Change #gone".data
    "Breaking-Change".data " #".data "gone".data
    (by decide) (by decide)
    (fun x hx => by
      have hx' : x = "a-b".data := by simpa using hx.symm
      subst hx'
      exact ⟨by decide, by decide⟩)
    (by decide) (by decide) rfl (by decide) (Or.inr (by decide)) (Or.inr rfl) rfl

/-! ## Whitespace around the message -/

theorem trimLeft_append_left (p x : List Char) (hp : ∀ c ∈ p, isSpace c = true) :
    trimLeft (p ++ x) = trimLeft x := by
  induction p with
  | nil => rfl
  | cons a p ih =>
    have ha := hp a (List.mem_cons_self _ _)
    have := ih (fun c hc => hp c (List.mem_cons_of_mem _ hc))
    unfold trimLeft at this ⊢
    simp [List.dropWhile, ha, this]

theorem trimRight_append_right (x q : List Char) (hq : ∀ c ∈ q, isSpace c = true) :
    trimRight (x ++ q) = trimRight x := by
  unfold trimRight
  rw [List.reverse_append]
  have := trimLeft_append_left q.reverse x.reverse (fun c hc => hq c (List.mem_reverse.1 hc))
  unfold trimLeft at this
  rw [this]

theorem trimLeft_append_right (m q : List Char) (h : ∃ c ∈ m, isSpace c = false) :
    trimLeft (m ++ q) = trimLeft m ++ q := by
  induction m with
  | nil => simp at h
  | cons a m ih =>
    cases ha : isSpace a with
    | false => simp [trimLeft, List.dropWhile, ha]
    | true =>
      obtain ⟨c, hc, hcs⟩ := h
      have hm : ∃ c ∈ m, isSpace c = false := by
        rcases List.mem_cons.1 hc with rfl | hc
        · rw [ha] at hcs; cases hcs
        · exact ⟨c, hc, hcs⟩
      have := ih hm
      unfold trimLeft at this ⊢
      simp [List.dropWhile, ha, this]

/-- Whitespace before and after a message does not change what `TrimSpace`
leaves of it. -/
theorem TrimSpace_pad (p m q : List Char) (hp : ∀ c ∈ p, isSpace c = true)
    (hq : ∀ c ∈ q, isSpace c = true) : TrimSpace (p ++ m ++ q) = TrimSpace m := by
  unfold TrimSpace
  rw [List.append_assoc, trimLeft_append_left p _ hp]
  by_cases hm : ∀ c ∈ m, isSpace c = true
  · rw [trimLeft_append_left m q hm, (trimLeft_eq_nil_iff q).2 hq, (trimLeft_eq_nil_iff m).2 hm]
  · have hex : ∃ c ∈ m, isSpace c = false := by
      by_contra hno
      apply hm
      intro c hc
      cases hcs : isSpace c with
      | true => rfl
      | false => exact absurd ⟨c, hc, hcs⟩ hno
    rw [trimLeft_append_right m q hex, trimRight_append_right _ q hq]

theorem Parse_congr (a b : List Char) (h : TrimSpace a = TrimSpace b) : Parse a = Parse b := by
  rw [Parse_eq a, Parse_eq b, h]

/-! ## C16, C17 and C18 -/

theorem IsHeader_of_headerRegex {h : List Char} {hp : HeaderMatch}
    (hm : headerRegex h = some hp) : IsHeader h := by
  obtain ⟨hty, htw, hsct, _, hsu, hnl, hrender⟩ := headerRegex_sound hm
  refine ⟨hp.type, if hp.scope = [] then none else some hp.scope, hp.breaking == ['!'],
    hp.subject, hty, htw, ?_, hsu, hnl, hrender⟩
  intro x hx
  by_cases hs : hp.scope = []
  · rw [if_pos hs] at hx; cases hx
  · rw [if_neg hs] at hx
    injection hx with hx
    rw [← hx]
    exact ⟨hs, hsct⟩

/-- C16 as stated fails: the messages `\nfix: y` and `\n` have an empty first
line; `Parse` succeeds on the first and returns the empty-message error, not
the header error, on the second. -/
theorem parse_leading_newline_counterexample :
    firstLine "\nfix: y".data = [] ∧
    Parse "\nfix: y".data =
      .ok { Type_ := "fix".data, Scope := [], Title := "y".data, Body := [], Footer := [],
            IsBreakingChange := false } ∧
    firstLine "\n".data = [] ∧ Parse "\n".data = .error .emptyMessage :=
  ⟨rfl, rfl, rfl, rfl⟩

/-- C16, amended. On a message that begins with a newline `Parse` returns what it
returns on the message without that newline, the whole message being trimmed
before its first line is taken; it fails with the header error exactly when the
message is not made of whitespace only and the first line of the trimmed
message does not match the header pattern. -/
theorem parse_leading_newline (m : List Char) :
    Parse ('\n' :: m) = Parse m ∧
    (Parse ('\n' :: m) = .error .malformedHeader ↔
      (¬ (∀ c ∈ m, isSpace c = true) ∧ ¬ IsHeader (firstLine (TrimSpace m)))) := by
  have hpad : TrimSpace ('\n' :: m) = TrimSpace m := by
    have := TrimSpace_pad ['\n'] m [] (by decide) (by simp)
    simpa using this
  have hP : Parse ('\n' :: m) = Parse m := Parse_congr _ _ hpad
  refine ⟨hP, ?_⟩
  rw [hP, Parse_eq, ← TrimSpace_eq_nil_iff]
  by_cases hT : TrimSpace m = []
  · rw [if_pos hT]
    constructor
    · intro h; cases h
    · intro h; exact absurd hT h.1
  · rw [if_neg hT]
    cases hh : headerRegex (firstLine (TrimSpace m)) with
    | none =>
      constructor
      · intro _
        refine ⟨hT, ?_⟩
        intro hI
        obtain ⟨hp, hm⟩ := headerRegex_of_IsHeader hI
        rw [hh] at hm
        cases hm
      · intro _; rfl
    | some hp =>
      constructor
      · intro h; cases h
      · intro h
        exact absurd (IsHeader_of_headerRegex hh) h.2

/-- The greedy repetition hands over exactly the whole run `t` when the rest of
the expression cannot start with a character of the class. -/
theorem reStar_exact {α : Type} (p : Char → Bool) (k : List Char → List Char → Option α)
    (t r acc : List Char) (ht : ∀ c ∈ t, p c = true)
    (hr : ∀ c cs, r = c :: cs → p c = false)
    (hk : ∀ a c cs, p c = true → k a (c :: cs) = none) :
    reStar p k acc (t ++ r) = k (acc ++ t) r := by
  induction t generalizing acc with
  | nil =>
    cases r with
    | nil => simp [reStar]
    | cons c cs => simp [reStar, hr c cs rfl]
  | cons a t ih =>
    have hpa : p a = true := ht a (List.mem_cons_self _ _)
    have h1 := ih (acc ++ [a]) (fun c hc => ht c (List.mem_cons_of_mem _ hc))
    simp only [List.cons_append, reStar, hpa, if_true, List.append_eq]
    rw [h1, hk acc a (t ++ r) hpa]
    simp only [List.append_assoc, List.singleton_append]
    cases k (acc ++ a :: t) r <;> rfl

theorem rePlus_exact {α : Type} (p : Char → Bool) (k : List Char → List Char → Option α)
    (t r : List Char) (hne : t ≠ []) (ht : ∀ c ∈ t, p c = true)
    (hr : ∀ c cs, r = c :: cs → p c = false)
    (hk : ∀ a c cs, p c = true → k a (c :: cs) = none) :
    rePlus p k (t ++ r) = k t r := by
  cases t with
  | nil => exact absurd rfl hne
  | cons a t =>
    have hpa : p a = true := ht a (List.mem_cons_self _ _)
    simp only [List.cons_append, rePlus, hpa, if_true]
    exact reStar_exact p k t r [a] (fun c hc => ht c (List.mem_cons_of_mem _ hc)) hr hk

theorem headerScope_wordChar (type : List Char) (c : Char) (cs : List Char)
    (h : isWordChar c = true) : headerScope type (c :: cs) = none := by
  have h1 : c ≠ '(' := by rintro rfl; exact absurd h (by decide)
  have h2 : c ≠ '!' := by rintro rfl; exact absurd h (by decide)
  have h3 : c ≠ ':' := by rintro rfl; exact absurd h (by decide)
  simp [headerScope, headerBreaking, headerSubject, reLit, reAlt, h1, h2, h3]

theorem headerBreaking_no_subject (type scope : List Char) (bang space : Bool) :
    headerBreaking type scope
      ((if bang then ['!'] else []) ++ ':' :: (if space then [' '] else [])) = none := by
  cases bang <;> cases space <;> rfl

/-- A header line without subject text is not matched by `headerRegex`. -/
theorem headerRegex_no_subject (t : List Char) (sc : Option (List Char)) (bang space : Bool)
    (ht : t ≠ []) (htw : ∀ c ∈ t, isWordChar c = true)
    (hsc : ∀ x, sc = some x → x ≠ [] ∧ ∀ c ∈ x, isTokenChar c = true) :
    headerRegex (renderHeaderNoSubject t sc bang space) = none := by
  unfold headerRegex renderHeaderNoSubject
  rw [rePlus_exact isWordChar _ t _ ht htw ?_ (fun a c cs hc => headerScope_wordChar a c cs hc)]
  · cases sc with
    | none =>
      cases bang <;> cases space <;> rfl
    | some x =>
      obtain ⟨hx, hxt⟩ := hsc x rfl
      have hsecond : ∀ rest : List Char, headerBreaking t [] ('(' :: rest) = none :=
        fun rest => rfl
      unfold headerScope
      simp only [List.cons_append, List.append_assoc]
      rw [hsecond, show ∀ (k : List Char → Option HeaderMatch) (rest : List Char),
        reLit ['('] k ('(' :: rest) = k rest from fun k rest => by simp [reLit]]
      rw [rePlus_exact isTokenChar _ x _ hx hxt]
      · simp only [List.nil_append]
        rw [show ∀ (k : List Char → Option HeaderMatch) (rest : List Char),
          reLit [')'] k (')' :: rest) = k rest from fun k rest => by simp [reLit]]
        rw [headerBreaking_no_subject]
        rfl
      · intro c cs h
        simp only [List.singleton_append, List.cons.injEq] at h
        rw [← h.1]; decide
      · intro a c cs hc
        have h1 : c ≠ ')' := by rintro rfl; exact absurd hc (by decide)
        simp [reLit, h1]
  · intro c cs h
    cases sc with
    | some x => simp at h; rw [← h.1]; decide
    | none =>
      cases bang with
      | true => simp at h; rw [← h.1]; decide
      | false => simp at h; rw [← h.1]; decide

/-- C17. For a type `t`, an optional scope and an optional `!`: when the header
line of the message, the first line once the message is trimmed, is
`t[(scope)][!]: ` with nothing after the separator, or the same without the
space, `Parse` fails with the header error, whatever lines follow. -/
theorem parse_no_subject_error (m t : List Char) (sc : Option (List Char))
    (bang space : Bool)
    (ht : t ≠ []) (htw : ∀ c ∈ t, isWordChar c = true)
    (hsc : ∀ x, sc = some x → x ≠ [] ∧ ∀ c ∈ x, isTokenChar c = true)
    (hhead : firstLine (TrimSpace m) = renderHeaderNoSubject t sc bang space) :
    Parse m = .error .malformedHeader := by
  have hT : TrimSpace m ≠ [] := by
    intro hT
    rw [hT] at hhead
    have : renderHeaderNoSubject t sc bang space = [] := hhead.symm
    unfold renderHeaderNoSubject at this
    exact ht (List.append_eq_nil.1 this).1
  rw [Parse_eq, if_neg hT, hhead, headerRegex_no_subject t sc bang space ht htw hsc]

/-- C17 at `feat(api)!: ` followed by further lines, where the space after the
colon stays in the header line. -/
theorem parse_no_subject_error_witness :
    Parse "feat(api)!: \n\nbody\n\nRefs: #1".data = .error .malformedHeader :=
  parse_no_subject_error "feat(api)!: \n\nbody\n\nRefs: #1".data "feat".data
    (some "api".data) true true (by decide) (by decide)
    (fun x hx => by
      have hx' : x = "api".data := by simpa using hx.symm
      subst hx'
      exact ⟨by decide, by decide⟩)
    rfl

/-- C18. For every message `m` and all `p` and `q` made of spaces, tabs and
newlines only, `Parse (p ++ m ++ q)` is `Parse m`: the same commit or the same
error. -/
theorem parse_surrounding_whitespace (p m q : List Char)
    (hp : ∀ c ∈ p, c = ' ' ∨ c = '\t' ∨ c = '\n')
    (hq : ∀ c ∈ q, c = ' ' ∨ c = '\t' ∨ c = '\n') :
    Parse (p ++ m ++ q) = Parse m := by
  have hsp : ∀ c : Char, (c = ' ' ∨ c = '\t' ∨ c = '\n') → isSpace c = true := by
    rintro c (rfl | rfl | rfl) <;> rfl
  exact Parse_congr _ _
    (TrimSpace_pad p m q (fun c hc => hsp c (hp c hc)) (fun c hc => hsp c (hq c hc)))

/-- C18 at a message wrapped in a newline and tab in front and a space and
newline behind. -/
theorem parse_surrounding_whitespace_witness :
    Parse ("\n\t".data ++ "fix: y\n\nRefs: #1".data ++ " \n".data) =
      Parse "fix: y\n\nRefs: #1".data :=
  parse_surrounding_whitespace "\n\t".data "fix: y\n\nRefs: #1".data " \n".data
    (by decide) (by decide)

/-! ## Counting the stored values -/

theorem FooterMap.total_set (m : FooterMap) (k : List Char) (vs : List (List Char)) :
    (m.set k vs).total + (m.get k).length = m.total + vs.length := by
  induction m with
  | nil => simp [FooterMap.set, FooterMap.get, FooterMap.total]
  | cons p rest ih =>
    obtain ⟨k', vs'⟩ := p
    unfold FooterMap.total at ih ⊢
    by_cases hk : k' = k
    · simp [FooterMap.set, FooterMap.get, hk]
      omega
    · simp only [FooterMap.set, FooterMap.get, hk, if_false, List.map_cons, List.sum_cons]
      omega

theorem appendToLast_length (vs : List (List Char)) (x : List Char) :
    (appendToLast vs x).length = vs.length := by
  rcases snoc_cases vs with hnil | ⟨init, last, hsnoc⟩
  · rw [hnil]; rfl
  · rw [hsnoc, appendToLast_snoc]
    simp

theorem footerStep_total (st : FooterState) (l : List Char) :
    (footerStep st l).footerMap.total =
      st.footerMap.total + (if (footerLineRegex l).isSome then 1 else 0) := by
  unfold footerStep
  cases hm : footerLineRegex l with
  | some p =>
    obtain ⟨tok, v⟩ := p
    have := FooterMap.total_set st.footerMap (normalizeToken tok)
      (st.footerMap.get (normalizeToken tok) ++ [v])
    simp only [List.length_append, List.length_singleton] at this
    simp only [Option.isSome_some, if_true]
    omega
  | none =>
    simp only [Option.isSome_none, Bool.false_eq_true, if_false, Nat.add_zero]
    by_cases hc : st.lastToken ≠ [] ∧ 0 < (st.footerMap.get st.lastToken).length
    · rw [if_pos hc]
      have := FooterMap.total_set st.footerMap st.lastToken
        (appendToLast (st.footerMap.get st.lastToken) ('\n' :: l))
      rw [appendToLast_length] at this
      simp only at this ⊢
      omega
    · rw [if_neg hc]

/-- The footer loop stores one value per line that `footerLineRegex` matches. -/
theorem footerLoop_total (lines : List (List Char)) :
    (footerLoop lines).footerMap.total =
      (lines.filter (fun l => (footerLineRegex l).isSome)).length := by
  induction lines using List.reverseRecOn with
  | nil => rfl
  | append_singleton ls l ih =>
    have hloop : footerLoop (ls ++ [l]) = footerStep (footerLoop ls) l := by
      simp [footerLoop, List.foldl_append]
    rw [hloop, footerStep_total, ih, List.filter_append, List.length_append]
    cases hm : (footerLineRegex l).isSome <;> simp [List.filter, hm]

theorem FooterMap.nodup_set (m : FooterMap) (k : List Char) (vs : List (List Char))
    (h : m.keys.Nodup) : (m.set k vs).keys.Nodup := by
  induction m with
  | nil => simp [FooterMap.set, FooterMap.keys]
  | cons p rest ih =>
    obtain ⟨k', vs'⟩ := p
    have hrest : FooterMap.keys rest = rest.map (fun p => p.1) := rfl
    have hcons : FooterMap.keys ((k', vs') :: rest) = k' :: FooterMap.keys rest := rfl
    rw [hcons, List.nodup_cons] at h
    by_cases hk : k' = k
    · subst hk
      have : FooterMap.set ((k', vs') :: rest) k' vs = (k', vs) :: rest := by
        simp [FooterMap.set]
      rw [this]
      show (k' :: FooterMap.keys rest).Nodup
      exact List.nodup_cons.2 h
    · have : FooterMap.set ((k', vs') :: rest) k vs = (k', vs') :: FooterMap.set rest k vs := by
        simp [FooterMap.set, hk]
      rw [this]
      show (k' :: FooterMap.keys (FooterMap.set rest k vs)).Nodup
      refine List.nodup_cons.2 ⟨?_, ih h.2⟩
      intro hmem
      rcases (FooterMap.mem_keys_set rest k k' vs).1 hmem with h1 | h1
      · exact hk h1
      · exact h.1 h1

theorem footerStep_nodup (st : FooterState) (l : List Char) (h : st.footerMap.keys.Nodup) :
    (footerStep st l).footerMap.keys.Nodup := by
  unfold footerStep
  cases footerLineRegex l with
  | some p => exact FooterMap.nodup_set _ _ _ h
  | none =>
    simp only
    split
    · exact FooterMap.nodup_set _ _ _ h
    · exact h

/-- No key stands twice in the footer map. -/
theorem footerLoop_nodup (lines : List (List Char)) :
    (footerLoop lines).footerMap.keys.Nodup := by
  induction lines using List.reverseRecOn with
  | nil => simp [footerLoop, FooterMap.keys]
  | append_singleton ls l ih =>
    have hloop : footerLoop (ls ++ [l]) = footerStep (footerLoop ls) l := by
      simp [footerLoop, List.foldl_append]
    rw [hloop]
    exact footerStep_nodup _ _ ih

theorem FooterMap.valueCount_eq_total (m : FooterMap) (h : m.keys.Nodup) :
    m.valueCount = m.total := by
  induction m with
  | nil => rfl
  | cons p rest ih =>
    obtain ⟨k', vs'⟩ := p
    have hcons : FooterMap.keys ((k', vs') :: rest) = k' :: FooterMap.keys rest := rfl
    rw [hcons, List.nodup_cons] at h
    have ih' := ih h.2
    unfold FooterMap.valueCount FooterMap.total at ih' ⊢
    rw [hcons]
    simp only [List.map_cons, List.sum_cons]
    have hhead : FooterMap.get ((k', vs') :: rest) k' = vs' := by simp [FooterMap.get]
    have htail : (FooterMap.keys rest).map
        (fun k => (FooterMap.get ((k', vs') :: rest) k).length) =
        (FooterMap.keys rest).map (fun k => (FooterMap.get rest k).length) := by
      apply List.map_congr_left
      intro k hk
      have hne : k' ≠ k := by
        rintro rfl
        exact h.1 hk
      simp [FooterMap.get, hne]
    rw [hhead, htail, ih']

theorem no_match_of_not_open (B : List (List Char)) (hB : ∀ x ∈ B, ¬ IsFooterOpen x) :
    B.filter (fun l => (footerLineRegex l).isSome) = [] := by
  rw [List.filter_eq_nil_iff]
  intro x hx
  cases hm : footerLineRegex x with
  | none => simp
  | some p => exact absurd (@open_of_footerLineRegex _ p.1 p.2 hm) (hB x hx)

/-! ## C19 and C20 -/

/-- C19. On every message on which `Parse` succeeds, no key stands twice in
`Footer`, and the number of values stored in `Footer`, summed over its keys,
is the number of lines after the header line of the trimmed message that
`footerLineRegex` matches. -/
theorem parse_footer_value_count (m : List Char) (c : Commit) (h : Parse m = .ok c) :
    c.Footer.keys.Nodup ∧
    c.Footer.valueCount =
      ((linesAfter (TrimSpace m)).filter (fun l => (footerLineRegex l).isSome)).length := by
  obtain ⟨B, F, hL, hB, _, _, hfooter⟩ := parse_footer_exists h
  have hnd : c.Footer.keys.Nodup := by rw [hfooter]; exact footerLoop_nodup F
  refine ⟨hnd, ?_⟩
  rw [FooterMap.valueCount_eq_total _ hnd, hfooter, footerLoop_total, hL, List.filter_append,
    no_match_of_not_open B hB, List.nil_append]

/-- C19 at a message with three matching lines, two of them under one key, and
two continuation lines. -/
theorem parse_footer_value_count_witness :
    (FooterMap.keys [("Refs".data, ["#1\nmore".data, "#2".data]),
        ("Closes".data, ["3\n".data])]).Nodup ∧
    FooterMap.valueCount [("Refs".data, ["#1\nmore".data, "#2".data]),
        ("Closes".data, ["3\n".data])] =
      ((linesAfter (TrimSpace "fix: y\n\ntext\n\nRefs: #1\nmore\nfix #3\n\nRefs: #2".data)).filter
        (fun l => (footerLineRegex l).isSome)).length :=
  parse_footer_value_count "fix: y\n\ntext\n\nRefs: #1\nmore\nfix #3\n\nRefs: #2".data
    { Type_ := "fix".data, Scope := [], Title := "y".data, Body := "text".data,
      Footer := [("Refs".data, ["#1\nmore".data, "#2".data]), ("Closes".data, ["3\n".data])],
      IsBreakingChange := false } rfl

theorem entriesOf_keys_normalized (ls : List (List Char)) :
    ∀ k ∈ (entriesOf ls).map (fun e => e.1), ∃ tok, k = normalizeToken tok := by
  induction ls using List.reverseRecOn with
  | nil => intro k hk; simp [entriesOf] at hk
  | append_singleton ls l ih =>
    intro k hk
    have hent : entriesOf (ls ++ [l]) = entryStep (entriesOf ls) l := by
      simp [entriesOf, List.foldl_append]
    rw [hent] at hk
    unfold entryStep at hk
    cases hm : footerLineRegex l with
    | some p =>
      obtain ⟨tok, v⟩ := p
      rw [hm] at hk
      simp only [List.map_append, List.mem_append, List.map_cons, List.map_nil,
        List.mem_singleton] at hk
      rcases hk with hk | hk
      · exact ih k hk
      · exact ⟨tok, hk⟩
    | none =>
      rw [hm] at hk
      simp only [keys_appendToLastEntry] at hk
      exact ih k hk

theorem canonicalToken_not_alias (tok : List Char) :
    (canonicalToken tok ≠ "Closes".data →
      anyCasing "fix".data (canonicalToken tok) = false ∧
      anyCasing "fixes".data (canonicalToken tok) = false ∧
      anyCasing "close".data (canonicalToken tok) = false ∧
      anyCasing "closes".data (canonicalToken tok) = false) ∧
    anyCasing "breaking-change".data (canonicalToken tok) = false := by
  unfold canonicalToken
  by_cases h1 : anyCasing "fix".data tok = true ∨ anyCasing "fixes".data tok = true ∨
      anyCasing "close".data tok = true ∨ anyCasing "closes".data tok = true
  · rw [if_pos h1]
    exact ⟨fun hne => absurd rfl hne, by decide⟩
  · rw [if_neg h1]
    by_cases h2 : anyCasing "breaking-change".data tok = true ∨ tok = "BREAKING CHANGE".data
    · rw [if_pos h2]
      exact ⟨fun _ => by decide, by decide⟩
    · rw [if_neg h2]
      simp only [not_or, Bool.not_eq_true] at h1 h2
      exact ⟨fun _ => ⟨h1.1, h1.2.1, h1.2.2.1, h1.2.2.2⟩, h2.1⟩

/-- C20. On every message on which `Parse` succeeds, a key of `Footer` other
than `Closes` is not `fix`, `fixes`, `close` or `closes` in any letter casing,
and no key of `Footer` is `breaking-change` in any letter casing. -/
theorem parse_footer_keys_canonical (m : List Char) (c : Commit) (k : List Char)
    (h : Parse m = .ok c) (hk : k ∈ c.Footer.keys) :
    (k ≠ "Closes".data →
      anyCasing "fix".data k = false ∧ anyCasing "fixes".data k = false ∧
      anyCasing "close".data k = false ∧ anyCasing "closes".data k = false) ∧
    anyCasing "breaking-change".data k = false := by
  obtain ⟨B, F, _, _, _, _, hfooter⟩ := parse_footer_exists h
  rw [hfooter, footerLoop_keys] at hk
  obtain ⟨tok, htok⟩ := entriesOf_keys_normalized F k hk
  rw [htok, normalizeToken_eq_canonicalToken]
  exact canonicalToken_not_alias tok

/-- C20 at a message whose footer lines use the spellings `FIX`, `closes` and
`Breaking-Change`: the key `BREAKING CHANGE` of the result is no alias spelling. -/
theorem parse_footer_keys_canonical_witness :
    ("BREAKING CHANGE".data ≠ "Closes".data →
      anyCasing "fix".data "BREAKING CHANGE".data = false ∧
      anyCasing "fixes".data "BREAKING CHANGE".data = false ∧
      anyCasing "close".data "BREAKING CHANGE".data = false ∧
      anyCasing "closes".data "BREAKING CHANGE".data = false) ∧
    anyCasing "breaking-change".data "BREAKING CHANGE".data = false :=
  parse_footer_keys_canonical "fix: y\n\nFIX #1\ncloses: #2\nBreaking-Change: z".data
    { Type_ := "fix".data, Scope := [], Title := "y".data, Body := [],
      Footer := [("Closes".data, ["1".data, "#2".data]), ("BREAKING CHANGE".data, ["z".data])],
      IsBreakingChange := true }
    "BREAKING CHANGE".data rfl (by decide)

/-! ## C5: the breaking-change flag, read off the header of the message -/

/-- C5. On a successful parse the header line of the message, the first line once
the message is trimmed, is `t[(scope)][!]: s` for a type `t` of word
characters, an optional scope of word characters and hyphens and a one-line
subject `s`; and for every such reading of the header line, `IsBreakingChange`
is true exactly when the header carries `!` right before the separator or the
returned `Footer` has an entry under `BREAKING CHANGE`. -/
theorem parse_breaking_change_iff (m : List Char) (c : Commit) (h : Parse m = .ok c) :
    IsHeader (firstLine (TrimSpace m)) ∧
    (∀ (t : List Char) (sc : Option (List Char)) (bang : Bool) (s : List Char),
      t ≠ [] → (∀ x ∈ t, isWordChar x = true) →
      (∀ x, sc = some x → x ≠ [] ∧ ∀ y ∈ x, isTokenChar y = true) →
      s ≠ [] → (∀ x ∈ s, x ≠ '\n') →
      firstLine (TrimSpace m) = renderHeader t sc bang s →
      (c.IsBreakingChange = true ↔
        (bang = true ∨ c.Footer.get "BREAKING CHANGE".data ≠ []))) := by
  obtain ⟨hp, hm, hc⟩ := Parse_ok h
  refine ⟨IsHeader_of_headerRegex hm, ?_⟩
  intro t sc bang s ht htw hsc hs hnl hhead
  have hrender := headerRegex_render t s sc bang ht htw hsc hs hnl
  rw [hhead, hrender] at hm
  injection hm with hm
  have hbr : hp.breaking = if bang then ['!'] else [] := by rw [← hm]
  have hB : c.IsBreakingChange =
      (hp.breaking == ['!'] || decide (0 < (c.Footer.get "BREAKING CHANGE".data).length)) := by
    rw [hc]; rfl
  rw [hB, hbr, Bool.or_eq_true, decide_eq_true_eq, List.length_pos]
  cases bang with
  | true => simp
  | false => simp

/-- C5 at a message whose header carries `!`, whose body follows and whose
footer is empty: `IsBreakingChange` is true by the header alone. -/
theorem parse_breaking_change_iff_witness :
    Parse "chore!: drop X\n\nbody".data =
      .ok { Type_ := "chore".data, Scope := [], Title := "drop X".data, Body := "body".data,
            Footer := [], IsBreakingChange := true } ∧
    (true = true ↔ (true = true ∨ FooterMap.get [] "BREAKING CHANGE".data ≠ [])) :=
  ⟨rfl,
   (parse_breaking_change_iff "chore!: drop X\n\nbody".data
      { Type_ := "chore".data, Scope := [], Title := "drop X".data, Body := "body".data,
        Footer := [], IsBreakingChange := true } rfl).2
    "chore".data none true "drop X".data (by decide) (by decide) (by simp) (by decide)
    (by decide) rfl⟩

end ConvCommit
